import Mathlib

/-!
# Metric reader (`metric/reader.go`)

A shallow embedding of the pull-based metric reader: `NewReader` wraps a batch
of metrics and `Read` fills caller-supplied buffers from it, walking through the
states `normal`, `split` and `done`.

The `telegraf.Metric` implementation is not part of the sources modelled here,
so a metric is a record of the three methods the reader calls; the contract the
reader relies on is stated separately as `Metric.WellFormed`.
-/

set_option autoImplicit false

namespace metric

/-- One octet of an encoded metric. -/
abbrev Byte := UInt8

/-- The part of the `telegraf.Metric` interface used by the reader, as a record of
methods: `Len()`, `CopyTo(dst)` (given the contents of `dst`, the contents after
the call) and `Serialize()`. -/
structure Metric where
  Len : Nat
  CopyTo : List Byte → List Byte
  Serialize : List Byte

/-- Modelled from the spec: the contract of the external `Metric` type, which is
not in the sources. `Len()` is the exact encoded size, `Serialize()` is the full
encoding, and `CopyTo(dst)` writes that encoding at the start of a destination
that is large enough, touching nothing after it. -/
structure Metric.WellFormed (m : Metric) : Prop where
  len_eq : m.Len = m.Serialize.length
  copyTo_eq : ∀ dst : List Byte, m.Len ≤ dst.length →
    m.CopyTo dst = m.Serialize ++ dst.drop m.Len

/-- What the type of `CopyTo` alone guarantees: the callee gets the slice `dst` by
value, so it can change the bytes of `dst` but not its length. -/
def Metric.KeepsLength (m : Metric) : Prop :=
  ∀ dst : List Byte, (m.CopyTo dst).length = dst.length

/-- A metric with `Len() = len(Serialize()) = 1` whose `CopyTo` overwrites the whole
destination. -/
def scribbler : Metric where
  Len := 1
  CopyTo := fun dst => dst.map (fun _ => 255)
  Serialize := [7]

/-- A metric given by its fixed encoding `e`. -/
def Metric.ofBytes (e : List Byte) : Metric where
  Len := e.length
  CopyTo := fun dst => e.take dst.length ++ dst.drop e.length
  Serialize := e

/-- The named `state` constants of the reader. The unnamed zero value of the Go type
is never assigned to a reader: `NewReader` starts in `normal`. -/
inductive State where
  | normal
  | split
  | done
  deriving DecidableEq, Repr

/-- The only error value `Read` returns. -/
inductive Error where
  | EOF
  deriving DecidableEq, Repr

/-- Run-time faults of the Go code (`indexOutOfRange`, `sliceOutOfRange`), and
the exhaustion of the loop bound of the model (`fuelExhausted`). -/
inductive Fault where
  | indexOutOfRange
  | sliceOutOfRange
  | fuelExhausted
  deriving DecidableEq, Repr

/-- The `reader` struct. -/
structure Reader where
  metrics : List Metric
  buf : List Byte
  state : State
  iM : Nat
  iB : Nat

/-- `NewReader(metrics)`: the zero value of every field but `metrics` and `state`. -/
def NewReader (metrics : List Metric) : Reader where
  metrics := metrics
  buf := []
  state := State.normal
  iM := 0
  iB := 0

/-- Go's builtin `copy(dst, src)`: the contents of `dst` afterwards and the number of
elements copied, `min(len(dst), len(src))`. -/
def copy (dst src : List Byte) : List Byte × Nat :=
  (src.take (min dst.length src.length) ++ dst.drop (min dst.length src.length),
    min dst.length src.length)

/-- What one call of `Read` hands back: the receiver and the buffer after the call,
and the two return values. -/
structure ReadResult where
  r : Reader
  p : List Byte
  n : Nat
  err : Option Error

/-- How the `for` loop of the `normal` case ends: by `break` (control goes on to the
`if i == 0` test) or by `return i, io.EOF`. -/
inductive LoopExit where
  | broke (r : Reader) (p : List Byte) (i : Nat)
  | returned (r : Reader) (p : List Byte) (i : Nat)

/-- The `for` loop of the `normal` case, with an explicit bound on the number of
iterations. `p[i:]` is `p.drop i`, and writing through that slice rewrites `p`
from index `i` on. -/
def normalLoop : Nat → Reader → List Byte → Nat → Except Fault LoopExit
  | 0, _, _, _ => Except.error Fault.fuelExhausted
  | fuel + 1, r, p, i =>
    match r.metrics[r.iM]? with
    | none => Except.error Fault.indexOutOfRange
    | some m =>
      if m.Len < (p.drop i).length then
        let p1 := p.take i ++ m.CopyTo (p.drop i)
        let i1 := i + m.Len
        let r1 := { r with iM := r.iM + 1 }
        if r1.iM = r1.metrics.length then
          Except.ok (LoopExit.returned { r1 with state := State.done } p1 i1)
        else
          normalLoop fuel r1 p1 i1
      else
        Except.ok (LoopExit.broke r p i)

/-- The method `(r *reader) Read(p []byte) (n int, err error)`. -/
def Reader.Read (r : Reader) (p : List Byte) : Except Fault ReadResult :=
  match r.state with
  | State.done => Except.ok ⟨r, p, 0, some Error.EOF⟩
  | State.normal =>
    match normalLoop (r.metrics.length - r.iM + 1) r p 0 with
    | Except.error f => Except.error f
    | Except.ok (LoopExit.returned r1 p1 i) => Except.ok ⟨r1, p1, i, some Error.EOF⟩
    | Except.ok (LoopExit.broke r1 p1 i) =>
      if i = 0 then
        match r1.metrics[r1.iM]? with
        | none => Except.error Fault.indexOutOfRange
        | some m =>
          let buf := m.Serialize
          if r1.iB ≤ buf.length then
            let c := copy p1 (buf.drop r1.iB)
            let i1 := i + c.2
            Except.ok ⟨{ r1 with buf := buf, iB := r1.iB + i1, state := State.split },
              c.1, i1, none⟩
          else
            Except.error Fault.sliceOutOfRange
      else
        Except.ok ⟨r1, p1, i, none⟩
  | State.split =>
    if r.iB ≤ r.buf.length then
      let c := copy p (r.buf.drop r.iB)
      let r1 := { r with iB := r.iB + c.2 }
      if r1.iB ≥ r1.buf.length then
        let r2 := { r1 with iB := 0, iM := r1.iM + 1 }
        if r2.iM = r2.metrics.length then
          Except.ok ⟨{ r2 with state := State.done }, c.1, c.2, some Error.EOF⟩
        else
          Except.ok ⟨{ r2 with state := State.normal }, c.1, c.2, none⟩
      else
        Except.ok ⟨r1, c.1, c.2, none⟩
    else
      Except.error Fault.sliceOutOfRange

/-- The chunk a call hands to the caller: `p[0:n]`. -/
def ReadResult.chunk (res : ReadResult) : List Byte := res.p.take res.n

/-- Successive calls of `Read`, one per buffer of the list, on the same reader. -/
def Reader.readMany (r : Reader) : List (List Byte) → Except Fault (Reader × List ReadResult)
  | [] => Except.ok (r, [])
  | p :: ps =>
    match r.Read p with
    | Except.error f => Except.error f
    | Except.ok res =>
      match res.r.readMany ps with
      | Except.error f => Except.error f
      | Except.ok (r1, rs) => Except.ok (r1, res :: rs)

/-- The concatenation of the encodings of a batch, in batch order. -/
def encAll (ms : List Metric) : List Byte := (ms.map Metric.Serialize).flatten

/-- A reader state that some sequence of `Read` calls reaches from `NewReader ms`. -/
def Reachable (ms : List Metric) (r : Reader) : Prop :=
  ∃ bufs rs, (NewReader ms).readMany bufs = Except.ok (r, rs)

/-! ## Invariant and bookkeeping used in the proofs -/

/-- The invariant of the reader over a non-empty batch: what each state says about
the cursor `(iM, iB)` and the scratch buffer. -/
def Reader.Inv (r : Reader) : Prop :=
  match r.state with
  | State.normal => r.iM < r.metrics.length ∧ r.iB = 0
  | State.split => ∃ m, r.metrics[r.iM]? = some m ∧ r.buf = m.Serialize ∧ r.iB ≤ r.buf.length
  | State.done => r.iM = r.metrics.length

/-- The bytes of the batch the reader has still to hand out. -/
def Reader.pending (r : Reader) : List Byte :=
  match r.state with
  | State.normal => encAll (r.metrics.drop r.iM)
  | State.split => r.buf.drop r.iB ++ encAll (r.metrics.drop (r.iM + 1))
  | State.done => []

/-- The number of pending bytes plus the number of metrics not yet passed: each call
with a non-empty buffer lowers it. -/
def Reader.fuelLeft (r : Reader) : Nat :=
  r.pending.length + (r.metrics.length - r.iM)

/-- What a call of `Read` with buffer `p` on a reader `r` satisfying the invariant
guarantees about its result `res`. -/
structure StepSpec (r : Reader) (p : List Byte) (res : ReadResult) : Prop where
  metrics_eq : res.r.metrics = r.metrics
  inv : res.r.Inv
  n_le : res.n ≤ p.length
  length_eq : res.p.length = p.length
  drop_eq : res.p.drop res.n = p.drop res.n
  pending_eq : r.pending = res.chunk ++ res.r.pending
  eof_iff : res.err = some Error.EOF ↔ res.r.state = State.done
  iM_le : r.iM ≤ res.r.iM
  progress : r.state ≠ State.done → 1 ≤ p.length → res.r.fuelLeft < r.fuelLeft
  advance : r.state ≠ State.done → 1 ≤ p.length → 1 ≤ res.n ∨ r.iM < res.r.iM

/-- The ceiling of `L / c`. -/
def ceilDiv (L c : Nat) : Nat := (L + c - 1) / c

/-- The consecutive `c`-byte slices of an encoding `e`, `ceilDiv e.length c` of them:
slice `t` starts at byte `c * t` and takes `c` bytes, or what is left of `e`. -/
def slices (c : Nat) (e : List Byte) : List (List Byte) :=
  (List.range (ceilDiv e.length c)).map (fun t => (e.drop (c * t)).take c)

/-- Overwriting `p` from index `i` on with `w`. -/
def splice (p : List Byte) (i : Nat) (w : List Byte) : List Byte :=
  p.take i ++ w ++ p.drop (i + w.length)

end metric

/-!
# InfluxDB write client (`plugins/outputs/influxdb/client.go`)

The client builds one HTTP request per call and hands it to a transport
(`fasthttp.DoTimeout`, `http.PostForm`). The transport is outside the program: it is
a parameter of the model, a function from the request to what came back. A Go `string`
is a Lean `String`, `[]byte(s)` its UTF-8 bytes, and an `error` is identified with
its message.
-/

namespace influxdb

/-- A Go `error` value, identified with its message. -/
abbrev GoError := String

/-- The struct `WriteParams`. -/
structure WriteParams where
  Database : String
  RetentionPolicy : String
  Precision : String
  Consistency : String

/-- The struct `ClientConfig`; `Timeout` is a `time.Duration`. -/
structure ClientConfig where
  BaseURL : String
  UserAgent : String
  Timeout : Int
  Username : String
  Password : String
  Params : WriteParams
  Gzip : Bool

/-- The struct `httpClient`. -/
structure httpClient where
  url : String
  cfg : ClientConfig

/-- A `url.Values`: the keys in the order they were first set, each with its values. -/
abbrev Values := List (String × List String)

/-- The entry `v[key]` of a `url.Values`. -/
def Values.lookup (v : Values) (key : String) : Option (List String) :=
  (v.find? (fun kv => kv.1 = key)).map (fun kv => kv.2)

/-- The method `Values.Set`: `key` gets the single value `value`, replacing what it had. -/
def Values.Set (v : Values) (key value : String) : Values :=
  if (v.lookup key).isSome then
    v.map (fun kv => if kv.1 = key then (key, [value]) else kv)
  else v ++ [(key, [value])]

/-- The keys of a `url.Values`. -/
def Values.keys (v : Values) : List String := v.map (fun kv => kv.1)

/-- The order of `sort.Strings`, character by character. -/
def bytewiseLE : List Char → List Char → Bool
  | [], _ => true
  | _ :: _, [] => false
  | a :: as, b :: bs =>
    if a.toNat < b.toNat then true
    else if b.toNat < a.toNat then false
    else bytewiseLE as bs

/-- Go's `sort.Strings`. -/
def sortStrings (keys : List String) : List String :=
  keys.insertionSort (fun a b => bytewiseLE a.data b.data = true)

/-- The method `Values.Encode`: the pairs `key=value`, both escaped, sorted by key and
joined by `&`. The parameter `escape` stands for `url.QueryEscape`. -/
def Values.Encode (escape : String → String) (v : Values) : String :=
  "&".intercalate
    ((sortStrings v.keys).flatMap (fun k =>
      ((v.lookup k).getD []).map (fun x => escape k ++ "=" ++ escape x)))

/-- The function `writeURLFromConfig`. -/
def writeURLFromConfig (escape : String → String) (baseURL : String) (wp : WriteParams) :
    String :=
  let params : Values := []
  let params := params.Set "db" wp.Database
  let params := if wp.RetentionPolicy ≠ "" then params.Set "rp" wp.RetentionPolicy else params
  let params :=
    if wp.Precision ≠ "n" ∧ wp.Precision ≠ "" then params.Set "precision" wp.Precision
    else params
  let params :=
    if wp.Consistency ≠ "one" ∧ wp.Consistency ≠ "" then
      params.Set "consistency" wp.Consistency
    else params
  baseURL ++ "/write?" ++ params.Encode escape

/-- The function `NewClient`. -/
def NewClient (escape : String → String) (cfg : ClientConfig) : httpClient where
  url := writeURLFromConfig escape cfg.BaseURL cfg.Params
  cfg := cfg

/-- The character of the standard base64 alphabet for a 6-bit value. -/
def base64Char (n : Nat) : Char :=
  if n < 26 then Char.ofNat (65 + n)
  else if n < 52 then Char.ofNat (97 + (n - 26))
  else if n < 62 then Char.ofNat (48 + (n - 52))
  else if n = 62 then '+'
  else '/'

/-- The 6-bit value of a character of the standard base64 alphabet. -/
def base64Value (c : Char) : Option Nat :=
  if 65 ≤ c.toNat ∧ c.toNat ≤ 90 then some (c.toNat - 65)
  else if 97 ≤ c.toNat ∧ c.toNat ≤ 122 then some (c.toNat - 97 + 26)
  else if 48 ≤ c.toNat ∧ c.toNat ≤ 57 then some (c.toNat - 48 + 52)
  else if c = '+' then some 62
  else if c = '/' then some 63
  else none

/-- Go's `base64.StdEncoding.EncodeToString`, the standard padded base64 encoding of
RFC 4648: three bytes give four characters, and a last group of one or two bytes is
padded with `=`. -/
def base64Encode : List UInt8 → List Char
  | [] => []
  | [a] => [base64Char (a.toNat / 4), base64Char (a.toNat % 4 * 16), '=', '=']
  | [a, b] => [base64Char (a.toNat / 4), base64Char (a.toNat % 4 * 16 + b.toNat / 16),
      base64Char (b.toNat % 16 * 4), '=']
  | a :: b :: c :: rest =>
    base64Char (a.toNat / 4) :: base64Char (a.toNat % 4 * 16 + b.toNat / 16) ::
      base64Char (b.toNat % 16 * 4 + c.toNat / 64) :: base64Char (c.toNat % 64) ::
      base64Encode rest

/-- Decoding of standard padded base64: four characters give three bytes, padding is
accepted in the last group only, and anything else is refused. -/
def base64Decode : List Char → Option (List UInt8)
  | [] => some []
  | c0 :: c1 :: c2 :: c3 :: rest =>
    match base64Value c0, base64Value c1 with
    | some s0, some s1 =>
      if c3 = '=' then
        if rest = [] then
          if c2 = '=' then
            if s1 % 16 = 0 then some [UInt8.ofNat (s0 * 4 + s1 / 16)] else none
          else
            match base64Value c2 with
            | some s2 =>
              if s2 % 4 = 0 then
                some [UInt8.ofNat (s0 * 4 + s1 / 16), UInt8.ofNat (s1 % 16 * 16 + s2 / 4)]
              else none
            | none => none
        else none
      else
        match base64Value c2, base64Value c3, base64Decode rest with
        | some s2, some s3, some bs =>
          some (UInt8.ofNat (s0 * 4 + s1 / 16) :: UInt8.ofNat (s1 % 16 * 16 + s2 / 4) ::
            UInt8.ofNat (s2 % 4 * 64 + s3) :: bs)
        | _, _, _ => none
    | _, _ => none
  | _ => none

/-- The conversion `[]byte(s)`. -/
def bytesOf (s : String) : List UInt8 := s.toUTF8.data.toList

/-- The function `basicAuth`. -/
def basicAuth (username password : String) : String :=
  let auth := username ++ ":" ++ password
  String.mk (base64Encode (bytesOf auth))

/-- The body of a request: none yet, the bytes given to `SetBody`, or the source and
the declared size given to `SetBodyStream` (the source as the bytes it yields). -/
inductive Body where
  | empty
  | bytes (b : List UInt8)
  | stream (source : List UInt8) (size : Int)

/-- A `fasthttp.Request`, as far as the client sets it: the header fields that have a
setter of their own, the other header lines by key, and the body. -/
structure Request where
  contentType : String
  method : String
  requestURI : String
  userAgent : String
  contentLength : Int
  headers : List (String × String)
  body : Body

/-- The request `fasthttp.AcquireRequest` hands out: nothing set. -/
def AcquireRequest : Request where
  contentType := ""
  method := ""
  requestURI := ""
  userAgent := ""
  contentLength := 0
  headers := []
  body := Body.empty

/-- The methods `Header.Set` and `Header.SetBytesKV` for a header line without a setter
of its own: the line of that key is replaced, or added. -/
def Request.Set (req : Request) (key value : String) : Request :=
  { req with headers :=
      if (req.headers.find? (fun kv => kv.1 = key)).isSome then
        req.headers.map (fun kv => if kv.1 = key then (key, value) else kv)
      else req.headers ++ [(key, value)] }

/-- The header line of a key, if the request carries one. -/
def Request.header (req : Request) (key : String) : Option String :=
  (req.headers.find? (fun kv => kv.1 = key)).map (fun kv => kv.2)

/-- The method `makeRequest`. -/
def httpClient.makeRequest (c : httpClient) : Request :=
  let req := AcquireRequest
  let req := { req with contentType := "text/plain" }
  let req := { req with method := "POST" }
  let req := { req with requestURI := c.url }
  let req := if c.cfg.Gzip then req.Set "Content-Encoding" "gzip" else req
  let req := { req with userAgent := c.cfg.UserAgent }
  let req :=
    if c.cfg.Username ≠ "" ∧ c.cfg.Password ≠ "" then
      req.Set "Authorization" ("Basic " ++ basicAuth c.cfg.Username c.cfg.Password)
    else req
  req

/-- What `fasthttp.DoTimeout` leaves behind: the error it returns, and the status code
the response then reports. -/
structure Outcome where
  err : Option GoError
  code : Int

/-- The method `Write`. `doTimeout` is the transport: the request and the timeout in,
the outcome back. -/
def httpClient.Write (c : httpClient) (doTimeout : Request → Int → Outcome)
    (b : List UInt8) : Int × Option GoError :=
  let req := c.makeRequest
  let req := { req with contentLength := b.length }
  let req := { req with body := Body.bytes b }
  let out := doTimeout req c.cfg.Timeout
  let err := out.err
  let code := out.code
  let err :=
    if code ≠ 204 ∧ err = none then
      some ("Received bad status code [" ++ toString code ++ "], expected [204]")
    else err
  if err = none then (b.length, none) else (0, err)

/-- The method `WriteStream`. -/
def httpClient.WriteStream (c : httpClient) (doTimeout : Request → Int → Outcome)
    (b : List UInt8) (size : Int) : Int × Option GoError :=
  let req := c.makeRequest
  let req := { req with contentLength := size }
  let req := { req with body := Body.stream b size }
  let out := doTimeout req c.cfg.Timeout
  let err := out.err
  let code := out.code
  let err :=
    if code ≠ 204 ∧ err = none then
      some ("Received bad status code [" ++ toString code ++ "], expected [204]")
    else err
  if err = none then (size, none) else (0, err)

/-- An `http.Response`, as far as `Create` reads it: the status code and what
`ioutil.ReadAll` gets out of the body. -/
structure Response where
  StatusCode : Int
  Body : String

/-- The arguments of a call of `http.PostForm`. -/
structure PostFormCall where
  url : String
  data : Values

/-- The method `Create`, returning next to its `error` the call of `http.PostForm` it
made. `postForm` is the transport. -/
def httpClient.Create (c : httpClient) (postForm : PostFormCall → Except GoError Response)
    (command : String) : PostFormCall × Option GoError :=
  let command := if command = "" then "CREATE DATABASE " ++ c.cfg.Params.Database else command
  let vals : Values := []
  let vals := vals.Set "q" command
  let call : PostFormCall := ⟨c.cfg.BaseURL ++ "/query", vals⟩
  match postForm call with
  | Except.error err => (call, some err)
  | Except.ok resp =>
    if resp.StatusCode ≠ 200 then
      (call, some ("Bad status code during Create(" ++ command ++ "): "
        ++ toString resp.StatusCode ++ ", body: " ++ resp.Body))
    else (call, none)

/-- The result contract of the two write methods, for a result `res`, the byte count
`n` reported on success and the outcome `out` of the transport: `(n, nil)` exactly
when there is no transport error and the status code is 204; with a transport error,
`(0, that error)`; with another status code, `(0, err)` where the message of `err`
contains the status code. -/
def AllOrNothing (res : Int × Option GoError) (n : Int) (out : Outcome) : Prop :=
  (res = (n, none) ↔ out.err = none ∧ out.code = 204) ∧
  (∀ e, out.err = some e → res = (0, some e)) ∧
  (out.err = none → out.code ≠ 204 →
    ∃ msg, res = (0, some msg) ∧ (toString out.code).data <:+: msg.data)

/-- The method `Close`. -/
def httpClient.Close (_c : httpClient) : Option GoError := none

end influxdb

namespace metric

theorem splice_nil (p : List Byte) (i : Nat) : splice p i [] = p := by
  simp [splice]

theorem splice_length (p : List Byte) (i : Nat) (w : List Byte) (h : i + w.length ≤ p.length) :
    (splice p i w).length = p.length := by
  simp [splice]; omega

theorem splice_take (p : List Byte) (i : Nat) (w : List Byte) (h : i ≤ p.length) :
    (splice p i w).take (i + w.length) = p.take i ++ w := by
  have h1 : (p.take i ++ w).length = i + w.length := by simp [h]
  unfold splice
  rw [← h1, List.take_left]

theorem splice_drop (p : List Byte) (i : Nat) (w : List Byte) (h : i ≤ p.length) (k : Nat) :
    (splice p i w).drop (i + w.length + k) = p.drop (i + w.length + k) := by
  have h1 : (p.take i ++ w).length = i + w.length := by simp [h]
  unfold splice
  rw [← h1, List.drop_append, List.drop_drop, h1]

theorem splice_splice (p : List Byte) (i : Nat) (w v : List Byte) (h : i ≤ p.length) :
    splice (splice p i w) (i + w.length) v = splice p i (w ++ v) := by
  have h2 := splice_drop p i w h v.length
  have h1 := splice_take p i w h
  have h3 : splice (splice p i w) (i + w.length) v
      = (splice p i w).take (i + w.length) ++ v
        ++ (splice p i w).drop (i + w.length + v.length) := rfl
  rw [h3, h1, h2]
  simp [splice, Nat.add_assoc]

theorem encAll_nil : encAll [] = [] := rfl

theorem encAll_cons (m : Metric) (ms : List Metric) :
    encAll (m :: ms) = m.Serialize ++ encAll ms := rfl

theorem encAll_drop (ms : List Metric) (j : Nat) (m : Metric) (h : ms[j]? = some m) :
    encAll (ms.drop j) = m.Serialize ++ encAll (ms.drop (j + 1)) := by
  obtain ⟨hj, rfl⟩ := List.getElem?_eq_some.mp h
  rw [List.drop_eq_getElem_cons hj, encAll_cons]

theorem wf_of_getElem? {ms : List Metric} (hwf : ∀ m ∈ ms, m.WellFormed) {j : Nat} {m : Metric}
    (h : ms[j]? = some m) : m.WellFormed :=
  hwf m (List.getElem?_mem h)

/-- The `for` loop of the `normal` case, started inside the batch with enough fuel:
it copies the encodings `w` of the metrics `r.iM .. j-1` behind the first `i` bytes
of `p` and ends either at the end of the batch (`return`) or at a metric `j` that
does not fit strictly in what is left of `p` (`break`). -/
theorem normalLoop_spec (fuel : Nat) : ∀ (r : Reader) (p : List Byte) (i : Nat),
    (∀ m ∈ r.metrics, m.WellFormed) → r.iM < r.metrics.length →
    r.metrics.length - r.iM ≤ fuel → i ≤ p.length →
    ∃ j w, r.iM ≤ j ∧ encAll (r.metrics.drop r.iM) = w ++ encAll (r.metrics.drop j) ∧
      i + w.length ≤ p.length ∧ (r.iM < j → i + w.length < p.length) ∧
      (j = r.iM → w = []) ∧
      ((j = r.metrics.length ∧ r.iM < j ∧ normalLoop fuel r p i =
          Except.ok (LoopExit.returned { r with iM := j, state := State.done }
            (splice p i w) (i + w.length))) ∨
       (∃ m, r.metrics[j]? = some m ∧ ¬ m.Len < p.length - (i + w.length) ∧
          normalLoop fuel r p i =
            Except.ok (LoopExit.broke { r with iM := j } (splice p i w) (i + w.length)))) := by
  induction fuel with
  | zero => intro r p i _ hj hf _; omega
  | succ fuel ih =>
    intro r p i hwf hj hf hi
    obtain ⟨m, hm⟩ : ∃ m, r.metrics[r.iM]? = some m := ⟨_, List.getElem?_eq_getElem hj⟩
    have hmwf := wf_of_getElem? hwf hm
    have hlen : m.Serialize.length = m.Len := hmwf.len_eq.symm
    by_cases hfit : m.Len < (p.drop i).length
    · have hcopy := hmwf.copyTo_eq (p.drop i) (le_of_lt hfit)
      have hp1 : p.take i ++ m.CopyTo (p.drop i) = splice p i m.Serialize := by
        rw [hcopy]; simp [splice, hlen, List.drop_drop, Nat.add_comm]
      have hfit2 : i + m.Len < p.length := by
        rw [List.length_drop] at hfit; omega
      by_cases hend : r.iM + 1 = r.metrics.length
      · refine ⟨r.iM + 1, m.Serialize, by omega, encAll_drop _ _ _ hm, by omega,
          fun _ => by omega, fun h => by omega, Or.inl ⟨hend, by omega, ?_⟩⟩
        simp only [normalLoop, hm, hfit, hend, if_true, hp1, hlen]
      · obtain ⟨j, w, hj1, henc, hle, hlt, hnil, hcase⟩ :=
          ih { r with iM := r.iM + 1 } (splice p i m.Serialize) (i + m.Len) hwf
            (by show r.iM + 1 < r.metrics.length; omega)
            (by show r.metrics.length - (r.iM + 1) ≤ fuel; omega)
            (by rw [splice_length _ _ _ (by omega)]; omega)
        have hsl : (splice p i m.Serialize).length = p.length :=
          splice_length _ _ _ (by omega)
        have hss : splice (splice p i m.Serialize) (i + m.Len) w
            = splice p i (m.Serialize ++ w) := by
          rw [← hlen]; exact splice_splice p i _ _ hi
        have hlw : i + m.Len + w.length = i + (m.Serialize ++ w).length := by
          simp [hlen]; omega
        have hstep : normalLoop (fuel + 1) r p i
            = normalLoop fuel { r with iM := r.iM + 1 } (splice p i m.Serialize) (i + m.Len) := by
          simp only [normalLoop, hm, hfit, hend, if_true, if_false, hp1]
        simp only [hsl] at hle hlt hcase
        have hj2 : r.iM + 1 ≤ j := hj1
        refine ⟨j, m.Serialize ++ w, by omega, ?_, by omega,
          fun _ => ?_, fun h => by omega, ?_⟩
        · rw [encAll_drop _ _ _ hm, List.append_assoc]
          exact congrArg _ henc
        · rcases Nat.lt_or_ge (r.iM + 1) j with h | h
          · have := hlt h; omega
          · have hw : w = [] := hnil (by show j = r.iM + 1; omega)
            subst hw
            simp only [List.append_nil, hlen]; omega
        · rw [hstep, ← hlw, ← hss]
          rcases hcase with ⟨h1, h2, h3⟩ | ⟨m2, h1, h2, h3⟩
          · exact Or.inl ⟨h1, by omega, h3⟩
          · exact Or.inr ⟨m2, h1, h2, h3⟩
    · have hfit2 : ¬ m.Len < p.length - i := by
        rw [List.length_drop] at hfit; exact hfit
      refine ⟨r.iM, [], le_refl _, by simp, by simpa using hi, fun h => absurd h (lt_irrefl _),
        fun _ => rfl, Or.inr ⟨m, hm, by simpa using hfit2, ?_⟩⟩
      simp only [normalLoop, hm, hfit, if_false, splice_nil, List.length_nil, Nat.add_zero]

/-- The bound `Read` gives the loop is never exhausted, whatever the reader and the
metrics: the loop always ends by `break`, by `return` or by a fault of the Go code. -/
theorem normalLoop_fuel (fuel : Nat) : ∀ (r : Reader) (p : List Byte) (i : Nat),
    r.metrics.length - r.iM + 1 ≤ fuel →
    normalLoop fuel r p i ≠ Except.error Fault.fuelExhausted := by
  induction fuel with
  | zero => intro r p i h; omega
  | succ fuel ih =>
    intro r p i h
    simp only [normalLoop]
    split
    · simp
    · rename_i m hm
      have hlt : r.iM < r.metrics.length := (List.getElem?_eq_some.mp hm).1
      split
      · split
        · simp
        · rename_i hne
          exact ih _ _ _ (by simp only at hne ⊢; omega)
      · simp

theorem Read_fuel (r : Reader) (p : List Byte) : r.Read p ≠ Except.error Fault.fuelExhausted := by
  have hl := normalLoop_fuel (r.metrics.length - r.iM + 1) r p 0 (le_refl _)
  unfold Reader.Read
  split
  · simp
  · split
    · rename_i f hf
      intro h
      simp only [Except.error.injEq] at h
      rw [hf, h] at hl
      exact hl rfl
    · simp
    · split
      · split
        · simp
        · dsimp only
          split <;> simp
      · simp
  · split
    · dsimp only
      split
      · split <;> simp
      · simp
    · simp

theorem copy_fst_length (dst src : List Byte) : (copy dst src).1.length = dst.length := by
  simp [copy]

theorem copy_snd (dst src : List Byte) : (copy dst src).2 = min dst.length src.length := rfl

theorem copy_take (dst src : List Byte) :
    (copy dst src).1.take (copy dst src).2 = src.take (min dst.length src.length) := by
  have h : (src.take (min dst.length src.length)).length = min dst.length src.length := by
    simp
  simp only [copy]
  exact List.take_left' h

theorem copy_drop (dst src : List Byte) :
    (copy dst src).1.drop (copy dst src).2 = dst.drop (min dst.length src.length) := by
  have h : (src.take (min dst.length src.length)).length = min dst.length src.length := by
    simp
  simp only [copy]
  exact List.drop_left' h

/-- A call in state `done`. -/
theorem Read_done (r : Reader) (p : List Byte) (h : r.state = State.done) :
    r.Read p = Except.ok ⟨r, p, 0, some Error.EOF⟩ := by
  simp only [Reader.Read, h]

/-- A call in state `split` whose copy does not reach the end of the scratch buffer. -/
theorem Read_split_more (r : Reader) (p : List Byte) (h : r.state = State.split)
    (hB : r.iB ≤ r.buf.length)
    (hlt : r.iB + min p.length (r.buf.length - r.iB) < r.buf.length) :
    r.Read p = Except.ok ⟨{ r with iB := r.iB + min p.length (r.buf.length - r.iB) },
      (copy p (r.buf.drop r.iB)).1, min p.length (r.buf.length - r.iB), none⟩ := by
  have hn : ¬ (r.iB + min p.length (r.buf.length - r.iB) ≥ r.buf.length) := by omega
  simp only [Reader.Read, h, hB, if_true, copy_snd, List.length_drop, hn, if_false]

/-- A call in state `split` whose copy reaches the end of the scratch buffer, at the
last metric. -/
theorem Read_split_last (r : Reader) (p : List Byte) (h : r.state = State.split)
    (hB : r.iB ≤ r.buf.length)
    (hge : r.buf.length ≤ r.iB + min p.length (r.buf.length - r.iB))
    (hend : r.iM + 1 = r.metrics.length) :
    r.Read p = Except.ok ⟨{ r with iB := 0, iM := r.iM + 1, state := State.done },
      (copy p (r.buf.drop r.iB)).1, min p.length (r.buf.length - r.iB), some Error.EOF⟩ := by
  have hn : r.iB + min p.length (r.buf.length - r.iB) ≥ r.buf.length := hge
  simp only [Reader.Read, h, hB, if_true, copy_snd, List.length_drop, hn, hend]

/-- A call in state `split` whose copy reaches the end of the scratch buffer, before
the last metric. -/
theorem Read_split_next (r : Reader) (p : List Byte) (h : r.state = State.split)
    (hB : r.iB ≤ r.buf.length)
    (hge : r.buf.length ≤ r.iB + min p.length (r.buf.length - r.iB))
    (hend : r.iM + 1 ≠ r.metrics.length) :
    r.Read p = Except.ok ⟨{ r with iB := 0, iM := r.iM + 1, state := State.normal },
      (copy p (r.buf.drop r.iB)).1, min p.length (r.buf.length - r.iB), none⟩ := by
  have hn : r.iB + min p.length (r.buf.length - r.iB) ≥ r.buf.length := hge
  simp only [Reader.Read, h, hB, if_true, copy_snd, List.length_drop, hn, hend, if_false]

/-- A call in state `normal` inside the batch: the three ways it can end. `w` is what
the loop copied, `j` the metric index it stopped at. -/
theorem Read_normal (r : Reader) (p : List Byte) (h : r.state = State.normal)
    (hwf : ∀ m ∈ r.metrics, m.WellFormed) (hj : r.iM < r.metrics.length) (hB : r.iB = 0) :
    ∃ j w, r.iM ≤ j ∧ encAll (r.metrics.drop r.iM) = w ++ encAll (r.metrics.drop j) ∧
      w.length ≤ p.length ∧ (r.iM < j → w.length < p.length) ∧ (j = r.iM → w = []) ∧
      ((j = r.metrics.length ∧ r.iM < j ∧ r.Read p =
          Except.ok ⟨{ r with iM := j, state := State.done }, splice p 0 w, w.length,
            some Error.EOF⟩) ∨
       (∃ m, r.metrics[j]? = some m ∧ ¬ m.Len < p.length - w.length ∧ w ≠ [] ∧ r.Read p =
          Except.ok ⟨{ r with iM := j }, splice p 0 w, w.length, none⟩) ∨
       (∃ m, r.metrics[j]? = some m ∧ ¬ m.Len < p.length ∧ w = [] ∧ r.Read p =
          Except.ok ⟨⟨r.metrics, m.Serialize, State.split, j, min p.length m.Serialize.length⟩,
            (copy p m.Serialize).1, min p.length m.Serialize.length, none⟩)) := by
  obtain ⟨j, w, hj1, henc, hle, hlt, hnil, hcase⟩ :=
    normalLoop_spec (r.metrics.length - r.iM + 1) r p 0 hwf hj (by omega) (Nat.zero_le _)
  simp only [Nat.zero_add] at hle hlt hcase
  refine ⟨j, w, hj1, henc, hle, hlt, hnil, ?_⟩
  rcases hcase with ⟨h1, h2, h3⟩ | ⟨m, h1, h2, h3⟩
  · exact Or.inl ⟨h1, h2, by simp only [Reader.Read, h, h3]⟩
  · by_cases hw : w = []
    · subst hw
      refine Or.inr (Or.inr ⟨m, h1, by simpa using h2, rfl, ?_⟩)
      simp only [Reader.Read, h, h3, List.length_nil, if_true, h1, hB, Nat.zero_le,
        List.drop_zero, splice_nil, Nat.zero_add, copy_snd]
    · refine Or.inr (Or.inl ⟨m, h1, h2, hw, ?_⟩)
      have hne : w.length ≠ 0 := fun h0 => hw (List.length_eq_zero.mp h0)
      simp only [Reader.Read, h, h3, hne, if_false]

theorem encAll_drop_length (ms : List Metric) : encAll (ms.drop ms.length) = [] := by
  simp [encAll]

theorem stepSpec_done (r : Reader) (p : List Byte) (h : r.state = State.done)
    (hinv : r.Inv) : StepSpec r p ⟨r, p, 0, some Error.EOF⟩ where
  metrics_eq := rfl
  inv := hinv
  n_le := Nat.zero_le _
  length_eq := rfl
  drop_eq := rfl
  pending_eq := by simp [Reader.pending, h, ReadResult.chunk]
  eof_iff := by simp [h]
  iM_le := le_refl _
  progress := fun hne => absurd h hne
  advance := fun hne => absurd h hne

theorem stepSpec_split (r : Reader) (p : List Byte) (h : r.state = State.split)
    (hinv : r.Inv) : ∃ res, r.Read p = Except.ok res ∧ StepSpec r p res := by
  simp only [Reader.Inv, h] at hinv
  obtain ⟨m, hm, hbuf, hB⟩ := hinv
  have hjlt : r.iM < r.metrics.length := (List.getElem?_eq_some.mp hm).1
  have hsplit : r.buf.drop r.iB
      = (r.buf.drop r.iB).take (min p.length (r.buf.length - r.iB))
        ++ r.buf.drop (r.iB + min p.length (r.buf.length - r.iB)) := by
    rw [← List.drop_drop, List.take_append_drop]
  have htake : ((copy p (r.buf.drop r.iB)).1).take (min p.length (r.buf.length - r.iB))
      = (r.buf.drop r.iB).take (min p.length (r.buf.length - r.iB)) := by
    have := copy_take p (r.buf.drop r.iB)
    simpa [copy_snd] using this
  have hdrop : ((copy p (r.buf.drop r.iB)).1).drop (min p.length (r.buf.length - r.iB))
      = p.drop (min p.length (r.buf.length - r.iB)) := by
    have := copy_drop p (r.buf.drop r.iB)
    simpa [copy_snd] using this
  by_cases hlt : r.iB + min p.length (r.buf.length - r.iB) < r.buf.length
  · refine ⟨_, Read_split_more r p h hB hlt, ?_⟩
    refine ⟨rfl, ?_, Nat.min_le_left _ _, copy_fst_length _ _, hdrop, ?_, ?_, le_refl _, ?_, ?_⟩
    · simp only [Reader.Inv, h]
      exact ⟨m, hm, hbuf, le_of_lt hlt⟩
    · simp only [Reader.pending, h, ReadResult.chunk, htake]
      rw [← List.append_assoc, ← hsplit]
    · simp [h]
    · intro _ hp
      simp only [Reader.fuelLeft, Reader.pending, h, List.length_append, List.length_drop]
      omega
    · intro _ hp
      left
      show 1 ≤ min p.length (r.buf.length - r.iB)
      omega
  · have hge : r.buf.length ≤ r.iB + min p.length (r.buf.length - r.iB) := by omega
    have hall : (r.buf.drop r.iB).take (min p.length (r.buf.length - r.iB))
        = r.buf.drop r.iB := by
      apply List.take_of_length_le
      rw [List.length_drop]; omega
    by_cases hend : r.iM + 1 = r.metrics.length
    · refine ⟨_, Read_split_last r p h hB hge hend, ?_⟩
      refine ⟨rfl, ?_, Nat.min_le_left _ _, copy_fst_length _ _, hdrop, ?_, ?_,
        Nat.le_succ _, ?_, ?_⟩
      · simp only [Reader.Inv]; exact hend
      · simp only [Reader.pending, h, ReadResult.chunk, htake, hall, hend,
          encAll_drop_length]
      · simp
      · intro _ _
        simp only [Reader.fuelLeft, Reader.pending, h, List.length_append, List.length_drop,
          List.length_nil]
        omega
      · intro _ _
        right
        exact Nat.lt_succ_self _
    · refine ⟨_, Read_split_next r p h hB hge hend, ?_⟩
      refine ⟨rfl, ?_, Nat.min_le_left _ _, copy_fst_length _ _, hdrop, ?_, ?_,
        Nat.le_succ _, ?_, ?_⟩
      · simp only [Reader.Inv]
        exact ⟨by omega, trivial⟩
      · simp only [Reader.pending, h, ReadResult.chunk, htake, hall]
      · simp
      · intro _ _
        simp only [Reader.fuelLeft, Reader.pending, h, List.length_append, List.length_drop]
        omega
      · intro _ _
        right
        exact Nat.lt_succ_self _

theorem splice_zero_take (p w : List Byte) : (splice p 0 w).take w.length = w := by
  have := splice_take p 0 w (Nat.zero_le _)
  simpa using this

theorem splice_zero_drop (p w : List Byte) : (splice p 0 w).drop w.length = p.drop w.length := by
  have := splice_drop p 0 w (Nat.zero_le _) 0
  simpa using this

theorem stepSpec_normal (r : Reader) (p : List Byte) (h : r.state = State.normal)
    (hwf : ∀ m ∈ r.metrics, m.WellFormed) (hinv : r.Inv) :
    ∃ res, r.Read p = Except.ok res ∧ StepSpec r p res := by
  simp only [Reader.Inv, h] at hinv
  obtain ⟨hj, hB⟩ := hinv
  obtain ⟨j, w, hj1, henc, hle, hlt, hnil, hcase⟩ := Read_normal r p h hwf hj hB
  rcases hcase with ⟨h1, h2, h3⟩ | ⟨m, h1, h2, hw, h3⟩ | ⟨m, h1, h2, hw, h3⟩
  · refine ⟨_, h3, ?_⟩
    refine ⟨rfl, ?_, hle, splice_length _ _ _ (by omega), splice_zero_drop _ _, ?_, ?_,
      hj1, ?_, ?_⟩
    · simp only [Reader.Inv]; exact h1
    · simp only [Reader.pending, h, ReadResult.chunk, splice_zero_take, henc, h1,
        encAll_drop_length]
    · simp
    · intro _ _
      simp only [Reader.fuelLeft, Reader.pending, h, henc, h1, encAll_drop_length,
        List.length_append, List.length_nil]
      omega
    · intro _ _
      right; exact h2
  · have hjlt : j < r.metrics.length := (List.getElem?_eq_some.mp h1).1
    have hwpos : 1 ≤ w.length := by
      rcases w with _ | ⟨a, t⟩
      · exact absurd rfl hw
      · simp
    refine ⟨_, h3, ?_⟩
    refine ⟨rfl, ?_, hle, splice_length _ _ _ (by omega), splice_zero_drop _ _, ?_, ?_,
      hj1, ?_, ?_⟩
    · simp only [Reader.Inv, h]; exact ⟨hjlt, hB⟩
    · simp only [Reader.pending, h, ReadResult.chunk, splice_zero_take, henc]
    · simp [h]
    · intro _ _
      simp only [Reader.fuelLeft, Reader.pending, h, henc, List.length_append]
      omega
    · intro _ _
      left; exact hwpos
  · have hjlt : j < r.metrics.length := (List.getElem?_eq_some.mp h1).1
    have hmwf := wf_of_getElem? hwf h1
    have hlen : m.Serialize.length = m.Len := hmwf.len_eq.symm
    have hmin : min p.length m.Serialize.length = p.length := by
      rw [hlen]; omega
    subst hw
    have hsplit : m.Serialize = m.Serialize.take p.length ++ m.Serialize.drop p.length :=
      (List.take_append_drop _ _).symm
    have htake : ((copy p m.Serialize).1).take p.length = m.Serialize.take p.length := by
      have := copy_take p m.Serialize
      simpa [copy_snd, hmin] using this
    have hdrop : ((copy p m.Serialize).1).drop p.length = p.drop p.length := by
      have := copy_drop p m.Serialize
      simpa [copy_snd, hmin] using this
    refine ⟨_, h3, ?_⟩
    rw [hmin]
    refine ⟨rfl, ?_, le_refl _, copy_fst_length _ _, hdrop, ?_, ?_, hj1, ?_, ?_⟩
    · simp only [Reader.Inv]
      exact ⟨m, h1, rfl, by omega⟩
    · simp only [Reader.pending, h, ReadResult.chunk, htake, henc, List.nil_append]
      rw [encAll_drop _ _ _ h1, ← List.append_assoc, ← hsplit]
    · simp
    · intro _ hp
      simp only [Reader.fuelLeft, Reader.pending, h, henc, List.nil_append,
        encAll_drop _ _ _ h1, List.length_append, List.length_drop]
      omega
    · intro _ hp
      left; exact hp

/-- One call of `Read` on a reader satisfying the invariant, over metrics that keep
their contract: the call returns, and its result obeys `StepSpec`. -/
theorem Read_step (r : Reader) (p : List Byte) (hwf : ∀ m ∈ r.metrics, m.WellFormed)
    (hinv : r.Inv) : ∃ res, r.Read p = Except.ok res ∧ StepSpec r p res := by
  cases h : r.state with
  | normal => exact stepSpec_normal r p h hwf hinv
  | split => exact stepSpec_split r p h hinv
  | done => exact ⟨_, Read_done r p h, stepSpec_done r p h hinv⟩

theorem newReader_inv (ms : List Metric) (hne : ms ≠ []) : (NewReader ms).Inv := by
  simp only [Reader.Inv, NewReader]
  exact ⟨List.length_pos.mpr hne, trivial⟩

theorem newReader_pending (ms : List Metric) : (NewReader ms).pending = encAll ms := by
  simp [Reader.pending, NewReader]

theorem readMany_nil (r : Reader) : r.readMany [] = Except.ok (r, []) := rfl

theorem readMany_cons (r : Reader) (p : List Byte) (ps : List (List Byte)) (res : ReadResult)
    (r1 : Reader) (rs : List ReadResult) (h1 : r.Read p = Except.ok res)
    (h2 : res.r.readMany ps = Except.ok (r1, rs)) :
    r.readMany (p :: ps) = Except.ok (r1, res :: rs) := by
  simp only [Reader.readMany, h1, h2]

theorem readMany_cons_inv (r : Reader) (p : List Byte) (ps : List (List Byte))
    (r1 : Reader) (rs : List ReadResult) (h : r.readMany (p :: ps) = Except.ok (r1, rs)) :
    ∃ res rs1, r.Read p = Except.ok res ∧ res.r.readMany ps = Except.ok (r1, rs1) ∧
      rs = res :: rs1 := by
  simp only [Reader.readMany] at h
  cases h1 : r.Read p with
  | error f => simp [h1] at h
  | ok res =>
    simp only [h1] at h
    cases h2 : res.r.readMany ps with
    | error f => simp [h2] at h
    | ok q =>
      obtain ⟨r2, rs2⟩ := q
      simp only [h2, Except.ok.injEq, Prod.mk.injEq] at h
      exact ⟨res, rs2, rfl, by rw [h2, h.1], h.2.symm⟩

/-- Any sequence of calls on a reader satisfying the invariant returns, keeps the
invariant, and hands out a prefix of the pending bytes, leaving the rest pending. -/
theorem readMany_spec (bufs : List (List Byte)) : ∀ (r : Reader),
    (∀ m ∈ r.metrics, m.WellFormed) → r.Inv →
    ∃ r1 rs, r.readMany bufs = Except.ok (r1, rs) ∧ r1.Inv ∧ r1.metrics = r.metrics ∧
      rs.length = bufs.length ∧
      r.pending = (rs.map ReadResult.chunk).flatten ++ r1.pending ∧
      (rs.map ReadResult.n).sum = ((rs.map ReadResult.chunk).flatten).length := by
  induction bufs with
  | nil => intro r _ hinv; exact ⟨r, [], rfl, hinv, rfl, rfl, by simp, by simp⟩
  | cons p ps ih =>
    intro r hwf hinv
    obtain ⟨res, hres, hs⟩ := Read_step r p hwf hinv
    obtain ⟨r1, rs, h1, h2, h3, h4, h5, h6⟩ :=
      ih res.r (by rw [hs.metrics_eq]; exact hwf) hs.inv
    refine ⟨r1, res :: rs, readMany_cons r p ps res r1 rs hres h1, h2, by rw [h3, hs.metrics_eq],
      by simp [h4], ?_, ?_⟩
    · rw [hs.pending_eq, h5]
      simp
    · have hn : res.chunk.length = res.n := by
        have := hs.n_le
        have := hs.length_eq
        simp only [ReadResult.chunk, List.length_take]
        omega
      simp [h6, hn]

theorem reachable_inv (ms : List Metric) (hne : ms ≠ []) (hwf : ∀ m ∈ ms, m.WellFormed)
    (r : Reader) (h : Reachable ms r) : r.Inv ∧ r.metrics = ms := by
  obtain ⟨bufs, rs, hr⟩ := h
  obtain ⟨r1, rs1, h1, h2, h3, _, _, _⟩ :=
    readMany_spec bufs (NewReader ms) hwf (newReader_inv ms hne)
  rw [hr] at h1
  simp only [Except.ok.injEq, Prod.mk.injEq] at h1
  rw [h1.1]
  exact ⟨h2, h3⟩

theorem err_cases (e : Option Error) : e = none ∨ e = some Error.EOF := by
  rcases e with _ | ⟨⟨⟩⟩
  · exact Or.inl rfl
  · exact Or.inr rfl

theorem range_succ_map (bufs : Nat → List Byte) (N : Nat) :
    (List.range (N + 1)).map bufs = bufs 0 :: (List.range N).map (fun k => bufs (k + 1)) := by
  rw [List.range_succ_eq_map, List.map_cons, List.map_map]
  rfl

/-- Reading with non-empty buffers from a reader that is not done: after at most
`fuelLeft` calls `io.EOF` comes, for the first time, and the chunks up to there are
exactly the pending bytes. -/
theorem drain (n : Nat) : ∀ (r : Reader) (bufs : Nat → List Byte),
    (∀ m ∈ r.metrics, m.WellFormed) → r.Inv → r.state ≠ State.done → r.fuelLeft ≤ n →
    (∀ k, 1 ≤ (bufs k).length) →
    ∃ N r1 rs last, N + 1 ≤ r.fuelLeft ∧
      r.readMany ((List.range (N + 1)).map bufs) = Except.ok (r1, rs ++ [last]) ∧
      (∀ res ∈ rs, res.err = none) ∧ last.err = some Error.EOF ∧
      r1.state = State.done ∧
      ((rs ++ [last]).map ReadResult.chunk).flatten = r.pending := by
  induction n with
  | zero =>
    intro r bufs hwf hinv hnd hn hb
    obtain ⟨res, _, hs⟩ := Read_step r (bufs 0) hwf hinv
    have := hs.progress hnd (hb 0)
    omega
  | succ n ih =>
    intro r bufs hwf hinv hnd hn hb
    obtain ⟨res, hres, hs⟩ := Read_step r (bufs 0) hwf hinv
    have hprog := hs.progress hnd (hb 0)
    rcases err_cases res.err with he | he
    · have hnd1 : res.r.state ≠ State.done := fun hd => by
        have := hs.eof_iff.mpr hd
        rw [he] at this
        exact Option.noConfusion this
      obtain ⟨N, r1, rs, last, hN, hrun, hnil, hlast, hdone, hcat⟩ :=
        ih res.r (fun k => bufs (k + 1)) (by rw [hs.metrics_eq]; exact hwf) hs.inv hnd1
          (by omega) (fun k => hb (k + 1))
      refine ⟨N + 1, r1, res :: rs, last, by omega, ?_, ?_, hlast, hdone, ?_⟩
      · rw [range_succ_map]
        exact readMany_cons r _ _ res r1 _ hres hrun
      · intro x hx
        rcases List.mem_cons.mp hx with rfl | hx
        · exact he
        · exact hnil x hx
      · rw [hs.pending_eq, ← hcat]
        simp
    · have hd := hs.eof_iff.mp he
      refine ⟨0, res.r, [], res, by omega, ?_, fun _ hx => absurd hx (List.not_mem_nil _), he,
        hd, ?_⟩
      · exact readMany_cons r _ _ res res.r [] hres rfl
      · rw [hs.pending_eq]
        simp [Reader.pending, hd]

theorem ofBytes_wellFormed (e : List Byte) : (Metric.ofBytes e).WellFormed where
  len_eq := rfl
  copyTo_eq := by
    intro dst h
    show e.take dst.length ++ dst.drop e.length = e ++ dst.drop e.length
    rw [List.take_of_length_le h]

theorem encAll_length (ms : List Metric) (hwf : ∀ m ∈ ms, m.WellFormed) :
    (encAll ms).length = (ms.map Metric.Len).sum := by
  induction ms with
  | nil => rfl
  | cons m t ih =>
    rw [encAll_cons, List.length_append, ih (fun x hx => hwf x (List.mem_cons_of_mem _ hx)),
      List.map_cons, List.sum_cons, (hwf m (List.mem_cons_self _ _)).len_eq]

theorem normalLoop_returned_done (fuel : Nat) : ∀ (r : Reader) (p : List Byte) (i : Nat)
    (r1 : Reader) (p1 : List Byte) (i1 : Nat),
    normalLoop fuel r p i = Except.ok (LoopExit.returned r1 p1 i1) → r1.state = State.done := by
  induction fuel with
  | zero => intro r p i r1 p1 i1 h; simp [normalLoop] at h
  | succ fuel ih =>
    intro r p i r1 p1 i1 h
    simp only [normalLoop] at h
    split at h
    · simp at h
    · split at h
      · split at h
        · simp only [Except.ok.injEq, LoopExit.returned.injEq] at h
          rw [← h.1]
        · exact ih _ _ _ _ _ _ h
      · simp at h

/-- Whatever the reader, a call that returns `io.EOF` leaves it in state `done`. -/
theorem Read_eof_done (r : Reader) (p : List Byte) (res : ReadResult)
    (h : r.Read p = Except.ok res) (he : res.err = some Error.EOF) :
    res.r.state = State.done := by
  unfold Reader.Read at h
  split at h
  · rename_i hd
    simp only [Except.ok.injEq] at h
    rw [← h]; exact hd
  · split at h
    · simp at h
    · rename_i r1 p1 i hl
      simp only [Except.ok.injEq] at h
      rw [← h]
      exact normalLoop_returned_done _ _ _ _ _ _ _ hl
    · split at h
      · split at h
        · simp at h
        · dsimp only at h
          split at h
          · simp only [Except.ok.injEq] at h
            rw [← h] at he; simp at he
          · simp at h
      · simp only [Except.ok.injEq] at h
        rw [← h] at he; simp at he
  · split at h
    · dsimp only at h
      split at h
      · split at h
        · simp only [Except.ok.injEq] at h
          rw [← h]
        · simp only [Except.ok.injEq] at h
          rw [← h] at he; simp at he
      · simp only [Except.ok.injEq] at h
        rw [← h] at he; simp at he
    · simp at h

theorem readMany_done (qs : List (List Byte)) : ∀ (r : Reader), r.state = State.done →
    r.readMany qs = Except.ok (r, qs.map (fun q => ⟨r, q, 0, some Error.EOF⟩)) := by
  induction qs with
  | nil => intro r _; rfl
  | cons q qs ih =>
    intro r hd
    exact readMany_cons r q qs ⟨r, q, 0, some Error.EOF⟩ r _ (Read_done r q hd) (ih r hd)

/-- A call in state `normal` at a metric that does not fit strictly in `p`: the metric
goes to the scratch buffer and the reader to state `split`. -/
theorem Read_normal_nofit (r : Reader) (p : List Byte) (m : Metric)
    (h : r.state = State.normal) (hm : r.metrics[r.iM]? = some m) (hB : r.iB = 0)
    (hnf : ¬ m.Len < p.length) :
    r.Read p = Except.ok ⟨⟨r.metrics, m.Serialize, State.split, r.iM,
        min p.length m.Serialize.length⟩,
      (copy p m.Serialize).1, min p.length m.Serialize.length, none⟩ := by
  simp only [Reader.Read, h, normalLoop, hm, List.drop_zero, hnf, if_false, if_true, hB,
    Nat.zero_le, Nat.zero_add, copy_snd]

/-- A call in state `normal` at the last metric, which fits strictly in `p`. -/
theorem Read_normal_fit_last (r : Reader) (p : List Byte) (m : Metric)
    (h : r.state = State.normal) (hm : r.metrics[r.iM]? = some m) (hwf : m.WellFormed)
    (hfit : m.Len < p.length) (hend : r.iM + 1 = r.metrics.length) :
    r.Read p = Except.ok ⟨{ r with iM := r.iM + 1, state := State.done },
      m.Serialize ++ p.drop m.Len, m.Len, some Error.EOF⟩ := by
  have hc := hwf.copyTo_eq p (le_of_lt hfit)
  simp only [Reader.Read, h, normalLoop, hm, List.drop_zero, hfit, if_true, hend,
    List.take_zero, List.nil_append, Nat.zero_add, hc]

/-- A call in state `normal` at a non-empty metric that fits strictly in `p`, followed
by a metric that does not fit strictly in the rest of `p`. -/
theorem Read_normal_fit_one (r : Reader) (p : List Byte) (m m2 : Metric)
    (h : r.state = State.normal) (hm : r.metrics[r.iM]? = some m) (hwf : m.WellFormed)
    (hfit : m.Len < p.length) (hm2 : r.metrics[r.iM + 1]? = some m2)
    (hnf : ¬ m2.Len < p.length - m.Len) (hpos : m.Len ≠ 0) :
    r.Read p = Except.ok ⟨{ r with iM := r.iM + 1 },
      m.Serialize ++ p.drop m.Len, m.Len, none⟩ := by
  have hc := hwf.copyTo_eq p (le_of_lt hfit)
  have hlt : r.iM + 1 < r.metrics.length := (List.getElem?_eq_some.mp hm2).1
  have hend : ¬ r.iM + 1 = r.metrics.length := by omega
  obtain ⟨f, hf⟩ : ∃ f, r.metrics.length - r.iM + 1 = f + 2 :=
    ⟨r.metrics.length - r.iM - 1, by omega⟩
  have hl : normalLoop (r.metrics.length - r.iM + 1) r p 0
      = Except.ok (LoopExit.broke { r with iM := r.iM + 1 } (m.Serialize ++ p.drop m.Len)
          m.Len) := by
    rw [hf]
    have hlen : (m.Serialize ++ p.drop m.Len).length = p.length := by
      rw [List.length_append, List.length_drop, ← hwf.len_eq]; omega
    have hnf2 : ¬ m2.Len < (m.Serialize ++ p.drop m.Len).length - m.Len := by rw [hlen]; exact hnf
    simp only [normalLoop, hm, List.drop_zero, hfit, if_true, hend, if_false,
      List.take_zero, List.nil_append, Nat.zero_add, hc, hm2, List.length_drop, hnf2]
  simp only [Reader.Read, h, hl, hpos, if_false]

theorem readMany_append (a : List (List Byte)) : ∀ (r r1 r2 : Reader) (b : List (List Byte))
    (rs1 rs2 : List ReadResult), r.readMany a = Except.ok (r1, rs1) →
    r1.readMany b = Except.ok (r2, rs2) → r.readMany (a ++ b) = Except.ok (r2, rs1 ++ rs2) := by
  induction a with
  | nil =>
    intro r r1 r2 b rs1 rs2 h1 h2
    simp only [Reader.readMany, Except.ok.injEq, Prod.mk.injEq] at h1
    rw [← h1.2, h1.1]
    simpa using h2
  | cons p ps ih =>
    intro r r1 r2 b rs1 rs2 h1 h2
    obtain ⟨res, rs, hres, hrest, rfl⟩ := readMany_cons_inv r p ps r1 rs1 h1
    exact readMany_cons r p (ps ++ b) res r2 (rs ++ rs2) hres (ih res.r r1 r2 b rs rs2 hrest h2)

theorem copy_same_length (p s : List Byte) (h : p.length = s.length) :
    copy p s = (s, s.length) := by
  simp [copy, h]

theorem copy_nil_src (p : List Byte) : copy p [] = (p, 0) := by
  simp [copy]

theorem ofBytes_all_keepsLength (es : List (List Byte)) :
    ∀ m ∈ es.map Metric.ofBytes, m.KeepsLength := by
  intro m hm dst
  obtain ⟨e, _, rfl⟩ := List.mem_map.mp hm
  show (e.take dst.length ++ dst.drop e.length).length = dst.length
  rw [List.length_append, List.length_take, List.length_drop]
  omega

theorem ofBytes_all_wellFormed (es : List (List Byte)) :
    ∀ m ∈ es.map Metric.ofBytes, m.WellFormed := by
  intro m hm
  obtain ⟨e, _, rfl⟩ := List.mem_map.mp hm
  exact ofBytes_wellFormed e

theorem getElem?_of_drop_eq_cons {ms : List Metric} {j : Nat} {x : Metric} {rest : List Metric}
    (h : ms.drop j = x :: rest) : ms[j]? = some x ∧ ms.drop (j + 1) = rest := by
  constructor
  · have h0 : (ms.drop j)[0]? = ms[j + 0]? := List.getElem?_drop ms j 0
    rw [h] at h0
    simpa using h0.symm
  · have h1 : (ms.drop j).drop 1 = ms.drop (j + 1) := by
      simp [List.drop_drop, Nat.add_comm]
    rw [← h1, h]
    rfl

/-- Reading a run of metrics of one length `L` with buffers of a size `c`,
`L < c ≤ 2L`: one whole metric per call, `io.EOF` with the last one. -/
theorem whole_metric_run (ms : List Metric) (hwf : ∀ m ∈ ms, m.WellFormed) (L c : Nat)
    (hL : ∀ m ∈ ms, m.Len = L) (h1 : L < c) (h2 : c ≤ 2 * L) (last : Metric) :
    ∀ (init : List Metric) (j : Nat) (buf : List Byte) (bufs : List (List Byte)),
    ms.drop j = init ++ [last] → bufs.length = init.length + 1 →
    (∀ p ∈ bufs, p.length = c) →
    ∃ rs, (⟨ms, buf, State.normal, j, 0⟩ : Reader).readMany bufs
        = Except.ok (⟨ms, buf, State.done, ms.length, 0⟩, rs) ∧
      rs.map (fun res => (res.n, res.chunk, res.err))
        = init.map (fun m => (L, m.Serialize, none)) ++ [(L, last.Serialize, some Error.EOF)] := by
  intro init
  induction init with
  | nil =>
    intro j buf bufs hd hlen hc
    obtain ⟨hm, hrest⟩ := getElem?_of_drop_eq_cons hd
    have hj : j < ms.length := (List.getElem?_eq_some.mp hm).1
    have hend : j + 1 = ms.length := by
      have := congrArg List.length hrest
      simp only [List.length_drop, List.length_nil] at this
      omega
    obtain ⟨p, rfl⟩ : ∃ p, bufs = [p] := by
      match bufs, hlen with
      | [p], _ => exact ⟨p, rfl⟩
    have hp : p.length = c := hc p (List.mem_singleton_self p)
    have hmw := wf_of_getElem? hwf hm
    have hmL : last.Len = L := hL last (List.getElem?_mem hm)
    have e : (⟨ms, buf, State.normal, j, 0⟩ : Reader).Read p
        = Except.ok ⟨⟨ms, buf, State.done, ms.length, 0⟩,
            last.Serialize ++ p.drop last.Len, last.Len, some Error.EOF⟩ := by
      rw [Read_normal_fit_last ⟨ms, buf, State.normal, j, 0⟩ p last rfl hm hmw
        (by omega) hend, ← hend]
    refine ⟨_, readMany_cons _ _ _ _ _ _ e rfl, ?_⟩
    simp [ReadResult.chunk, hmL, ← hmw.len_eq]
  | cons m init ih =>
    intro j buf bufs hd hlen hc
    obtain ⟨hm, hrest⟩ := getElem?_of_drop_eq_cons hd
    obtain ⟨m2, rest2, hr2⟩ : ∃ m2 rest2, init ++ [last] = m2 :: rest2 := by
      cases init with
      | nil => exact ⟨last, [], rfl⟩
      | cons a t => exact ⟨a, t ++ [last], rfl⟩
    obtain ⟨hm2, _⟩ := getElem?_of_drop_eq_cons (hrest.trans hr2)
    obtain ⟨p, ps, rfl⟩ : ∃ p ps, bufs = p :: ps := by
      match bufs, hlen with
      | p :: ps, _ => exact ⟨p, ps, rfl⟩
    have hp : p.length = c := hc p (List.mem_cons_self _ _)
    have hmw := wf_of_getElem? hwf hm
    have hmL : m.Len = L := hL m (List.getElem?_mem hm)
    have hm2L : m2.Len = L := hL m2 (List.getElem?_mem hm2)
    have e := Read_normal_fit_one ⟨ms, buf, State.normal, j, 0⟩ p m m2 rfl hm hmw
      (by omega) hm2 (by omega) (by omega)
    obtain ⟨rs, hrun, hmap⟩ := ih (j + 1) buf ps hrest (by simpa using hlen)
      (fun q hq => hc q (List.mem_cons_of_mem _ hq))
    refine ⟨_, readMany_cons _ _ _ _ _ _ e hrun, ?_⟩
    simp only [List.map_cons, hmap, List.cons_append, List.cons.injEq, and_true]
    simp [ReadResult.chunk, hmL, ← hmw.len_eq]

theorem ceilDiv_small (d c : Nat) (h1 : 1 ≤ d) (h2 : d ≤ c) : ceilDiv d c = 1 :=
  Nat.div_eq_of_lt_le (by omega) (by omega)

theorem ceilDiv_big (d c : Nat) (hc : 1 ≤ c) (h : c < d) :
    ceilDiv d c = ceilDiv (d - c) c + 1 := by
  unfold ceilDiv
  have : d + c - 1 = (d - c + c - 1) + c := by omega
  rw [this, Nat.add_div_right _ (by omega)]

theorem copy_chunk (p s : List Byte) :
    ((copy p s).1).take (min p.length s.length) = s.take (min p.length s.length) :=
  copy_take p s

/-- Reading the rest of the scratch buffer, `d ≥ 1` bytes from offset `iB` on, with
buffers of size `c`: `ceilDiv d c` calls, slice by slice, and then on to the next
metric or to `done`. -/
theorem split_run (ms : List Metric) (buf : List Byte) (j c : Nat) (hc : 1 ≤ c)
    (hj : j < ms.length) (d : Nat) : ∀ (iB : Nat) (bufs : List (List Byte)),
    iB < buf.length → buf.length - iB = d → bufs.length = ceilDiv d c →
    (∀ p ∈ bufs, p.length = c) →
    ∃ rs, (⟨ms, buf, State.split, j, iB⟩ : Reader).readMany bufs
        = Except.ok (⟨ms, buf, if j + 1 = ms.length then State.done else State.normal,
            j + 1, 0⟩, rs) ∧
      rs.map ReadResult.chunk
        = (List.range (ceilDiv d c)).map (fun t => (buf.drop (iB + c * t)).take c) ∧
      rs.map ReadResult.err = List.replicate (ceilDiv d c - 1) none
        ++ [if j + 1 = ms.length then some Error.EOF else none] ∧
      ∀ res ∈ rs, res.n = res.chunk.length := by
  induction d using Nat.strong_induction_on with
  | _ d ih =>
    intro iB bufs hB hd hlen hpc
    by_cases hsmall : d ≤ c
    · have hn : ceilDiv d c = 1 := ceilDiv_small d c (by omega) hsmall
      rw [hn] at hlen ⊢
      obtain ⟨p, rfl⟩ : ∃ p, bufs = [p] := by
        match bufs, hlen with
        | [p], _ => exact ⟨p, rfl⟩
      have hp : p.length = c := hpc p (List.mem_singleton_self p)
      have hmin : min p.length (buf.length - iB) = d := by omega
      have hch : ((copy p (buf.drop iB)).1).take d = (buf.drop iB).take c := by
        have h1 := copy_chunk p (buf.drop iB)
        rw [List.length_drop, hmin] at h1
        rw [h1, List.take_of_length_le (by rw [List.length_drop]; omega),
          List.take_of_length_le (by rw [List.length_drop]; omega)]
      have hcl : (copy p (buf.drop iB)).1.length = c := by rw [copy_fst_length, hp]
      by_cases hend : j + 1 = ms.length
      · have e := Read_split_last ⟨ms, buf, State.split, j, iB⟩ p rfl (le_of_lt hB)
          (by show buf.length ≤ iB + min p.length (buf.length - iB); omega) hend
        rw [hmin] at e
        refine ⟨[⟨⟨ms, buf, State.done, j + 1, 0⟩, (copy p (buf.drop iB)).1, d,
          some Error.EOF⟩], ?_, ?_, ?_, ?_⟩
        · rw [if_pos hend]
          exact readMany_cons _ _ _ _ _ _ e rfl
        · simp [ReadResult.chunk, hch, List.range_succ]
        · simp [hend]
        · intro res hres
          rw [List.mem_singleton] at hres
          subst hres
          simp only [ReadResult.chunk, List.length_take, hcl]
          omega
      · have e := Read_split_next ⟨ms, buf, State.split, j, iB⟩ p rfl (le_of_lt hB)
          (by show buf.length ≤ iB + min p.length (buf.length - iB); omega) hend
        rw [hmin] at e
        refine ⟨[⟨⟨ms, buf, State.normal, j + 1, 0⟩, (copy p (buf.drop iB)).1, d, none⟩],
          ?_, ?_, ?_, ?_⟩
        · rw [if_neg hend]
          exact readMany_cons _ _ _ _ _ _ e rfl
        · simp [ReadResult.chunk, hch, List.range_succ]
        · simp [hend]
        · intro res hres
          rw [List.mem_singleton] at hres
          subst hres
          simp only [ReadResult.chunk, List.length_take, hcl]
          omega
    · have hbig : c < d := by omega
      have hn : ceilDiv d c = ceilDiv (d - c) c + 1 := ceilDiv_big d c hc hbig
      rw [hn] at hlen ⊢
      obtain ⟨p, ps, rfl⟩ : ∃ p ps, bufs = p :: ps := by
        match bufs, hlen with
        | p :: ps, _ => exact ⟨p, ps, rfl⟩
      have hp : p.length = c := hpc p (List.mem_cons_self _ _)
      have hmin : min p.length (buf.length - iB) = c := by omega
      have hch : ((copy p (buf.drop iB)).1).take c = (buf.drop iB).take c := by
        have h1 := copy_chunk p (buf.drop iB)
        rw [List.length_drop, hmin] at h1
        exact h1
      have hcl : (copy p (buf.drop iB)).1.length = c := by rw [copy_fst_length, hp]
      have e := Read_split_more ⟨ms, buf, State.split, j, iB⟩ p rfl (le_of_lt hB)
        (by show iB + min p.length (buf.length - iB) < buf.length; omega)
      rw [hmin] at e
      obtain ⟨rs, hrun, hchunks, herr, hns⟩ := ih (d - c) (by omega) (iB + c) ps (by omega)
        (by omega) (by simpa using hlen) (fun q hq => hpc q (List.mem_cons_of_mem _ hq))
      refine ⟨_, readMany_cons _ _ _ _ _ _ e hrun, ?_, ?_, ?_⟩
      · rw [List.map_cons, hchunks, List.range_succ_eq_map, List.map_cons, List.map_map]
        simp only [ReadResult.chunk, hch, Nat.mul_zero, Nat.add_zero, List.cons.injEq, true_and]
        apply List.map_congr_left
        intro t _
        simp only [Function.comp, Nat.succ_eq_add_one, Nat.mul_add, Nat.mul_one]
        rw [Nat.add_assoc, Nat.add_comm c (c * t)]
      · rw [List.map_cons, herr]
        simp only [Nat.add_sub_cancel]
        cases hk : ceilDiv (d - c) c with
        | zero =>
          have : 1 ≤ ceilDiv (d - c) c := by
            unfold ceilDiv
            exact (Nat.le_div_iff_mul_le (by omega)).mpr (by omega)
          omega
        | succ k => simp [List.replicate_succ]
      · intro res hres
        rcases List.mem_cons.mp hres with rfl | hres
        · simp only [ReadResult.chunk, List.length_take, hcl]
          omega
        · exact hns res hres

theorem ceilDiv_pos (d c : Nat) (hc : 1 ≤ c) (hd : 1 ≤ d) : 1 ≤ ceilDiv d c := by
  unfold ceilDiv
  exact (Nat.le_div_iff_mul_le (by omega)).mpr (by omega)

theorem replicate_glue (x y : Option Error) (a b : Nat) (ha : 1 ≤ a) (hb : 1 ≤ b) :
    List.replicate (a - 1) x ++ [x] ++ (List.replicate (b - 1) x ++ [y])
      = List.replicate (a + b - 1) x ++ [y] := by
  have h1 : List.replicate (a - 1) x ++ [x] = List.replicate a x := by
    rw [← List.replicate_succ']
    congr 1
    omega
  have h2 : a + b - 1 = a + (b - 1) := by omega
  rw [h1, h2, List.replicate_add, List.append_assoc]

/-- Reading one metric longer than `c` with buffers of size `c`, from state `normal`:
its slices, one per call, and then on to the next metric or to `done`. -/
theorem metric_run (ms : List Metric) (buf0 : List Byte) (j c : Nat) (hc : 1 ≤ c)
    (m : Metric) (hm : ms[j]? = some m) (hmw : m.WellFormed) (hL : c < m.Len)
    (bufs : List (List Byte)) (hlen : bufs.length = ceilDiv m.Len c)
    (hpc : ∀ p ∈ bufs, p.length = c) :
    ∃ rs, (⟨ms, buf0, State.normal, j, 0⟩ : Reader).readMany bufs
        = Except.ok (⟨ms, m.Serialize, if j + 1 = ms.length then State.done else State.normal,
            j + 1, 0⟩, rs) ∧
      rs.map ReadResult.chunk = slices c m.Serialize ∧
      rs.map ReadResult.err = List.replicate (ceilDiv m.Len c - 1) none
        ++ [if j + 1 = ms.length then some Error.EOF else none] ∧
      ∀ res ∈ rs, res.n = res.chunk.length := by
  have hj : j < ms.length := (List.getElem?_eq_some.mp hm).1
  have hlenS : m.Serialize.length = m.Len := hmw.len_eq.symm
  have hn : ceilDiv m.Len c = ceilDiv (m.Len - c) c + 1 := ceilDiv_big _ c hc hL
  have hpos : 1 ≤ ceilDiv (m.Len - c) c := ceilDiv_pos _ c hc (by omega)
  rw [hn] at hlen
  obtain ⟨p, ps, rfl⟩ : ∃ p ps, bufs = p :: ps := by
    match bufs, hlen with
    | p :: ps, _ => exact ⟨p, ps, rfl⟩
  have hp : p.length = c := hpc p (List.mem_cons_self _ _)
  have hmin : min p.length m.Serialize.length = c := by omega
  have e := Read_normal_nofit ⟨ms, buf0, State.normal, j, 0⟩ p m rfl hm rfl (by omega)
  rw [hmin] at e
  have hch : ((copy p m.Serialize).1).take c = m.Serialize.take c := by
    have h1 := copy_chunk p m.Serialize
    rw [hmin] at h1
    exact h1
  have hcl : (copy p m.Serialize).1.length = c := by rw [copy_fst_length, hp]
  obtain ⟨rs, hrun, hchunks, herr, hns⟩ := split_run ms m.Serialize j c hc hj (m.Len - c) c ps
    (by omega) (by omega) (by simpa using hlen) (fun q hq => hpc q (List.mem_cons_of_mem _ hq))
  refine ⟨_, readMany_cons _ _ _ _ _ _ e hrun, ?_, ?_, ?_⟩
  · rw [List.map_cons, hchunks, slices, hlenS, hn, List.range_succ_eq_map, List.map_cons,
      List.map_map]
    simp only [ReadResult.chunk, hch, Nat.mul_zero, List.drop_zero, List.cons.injEq, true_and]
    apply List.map_congr_left
    intro t _
    simp only [Function.comp, Nat.succ_eq_add_one, Nat.mul_add, Nat.mul_one]
    rw [Nat.add_comm c (c * t)]
  · rw [List.map_cons, herr, hn]
    simp only [Nat.add_sub_cancel]
    obtain ⟨k, hk⟩ : ∃ k, ceilDiv (m.Len - c) c = k + 1 := ⟨_, (Nat.sub_add_cancel hpos).symm⟩
    rw [hk]
    simp [List.replicate_succ]
  · intro res hres
    rcases List.mem_cons.mp hres with rfl | hres
    · simp only [ReadResult.chunk, List.length_take, hcl]
      omega
    · exact hns res hres

/-- Reading the metrics from index `j` on, all longer than `c`, with buffers of size
`c`: the slices of each metric in turn, `io.EOF` with the very last slice only. -/
theorem batch_run (ms : List Metric) (hwf : ∀ m ∈ ms, m.WellFormed) (c : Nat) (hc : 1 ≤ c)
    (hL : ∀ m ∈ ms, c < m.Len) : ∀ (rest : List Metric) (j : Nat) (buf0 : List Byte)
    (bufs : List (List Byte)), ms.drop j = rest → rest ≠ [] →
    bufs.length = (rest.map (fun m => ceilDiv m.Len c)).sum → (∀ p ∈ bufs, p.length = c) →
    ∃ r1 rs, (⟨ms, buf0, State.normal, j, 0⟩ : Reader).readMany bufs = Except.ok (r1, rs) ∧
      r1.state = State.done ∧
      rs.map ReadResult.chunk = (rest.map (fun m => slices c m.Serialize)).flatten ∧
      rs.map ReadResult.err = List.replicate (bufs.length - 1) none ++ [some Error.EOF] ∧
      ∀ res ∈ rs, res.n = res.chunk.length := by
  intro rest
  induction rest with
  | nil => intro j buf0 bufs _ hne; exact absurd rfl hne
  | cons m rest ih =>
    intro j buf0 bufs hd _ hlen hpc
    obtain ⟨hm, hrest⟩ := getElem?_of_drop_eq_cons hd
    have hj : j < ms.length := (List.getElem?_eq_some.mp hm).1
    have hmw := wf_of_getElem? hwf hm
    have hmL : c < m.Len := hL m (List.getElem?_mem hm)
    have hpos : 1 ≤ ceilDiv m.Len c := ceilDiv_pos _ c hc (by omega)
    rw [List.map_cons, List.sum_cons] at hlen
    have hsplit : bufs.take (ceilDiv m.Len c) ++ bufs.drop (ceilDiv m.Len c) = bufs :=
      List.take_append_drop _ _
    have htl : (bufs.take (ceilDiv m.Len c)).length = ceilDiv m.Len c := by
      rw [List.length_take]; omega
    have hdl : (bufs.drop (ceilDiv m.Len c)).length
        = (rest.map (fun m => ceilDiv m.Len c)).sum := by
      rw [List.length_drop]; omega
    obtain ⟨rs1, hrun1, hch1, herr1, hn1⟩ := metric_run ms buf0 j c hc m hm hmw hmL
      (bufs.take (ceilDiv m.Len c)) htl (fun q hq => hpc q (List.mem_of_mem_take hq))
    by_cases hend : j + 1 = ms.length
    · have hnil : rest = [] := by
        rw [← hrest]
        exact List.drop_eq_nil_of_le (by omega)
      subst hnil
      have hdn : bufs.drop (ceilDiv m.Len c) = [] := by
        apply List.eq_nil_of_length_eq_zero
        rw [hdl]; rfl
      rw [hdn, List.append_nil] at hsplit
      rw [hsplit, if_pos hend] at hrun1
      rw [hsplit] at htl
      refine ⟨_, rs1, hrun1, rfl, ?_, ?_, hn1⟩
      · simp [hch1]
      · rw [herr1, if_pos hend, htl]
    · have hne : rest ≠ [] := by
        intro h0
        rw [h0] at hrest
        have := congrArg List.length hrest
        simp only [List.length_drop, List.length_nil] at this
        omega
      rw [if_neg hend] at hrun1
      obtain ⟨r2, rs2, hrun2, hdone, hch2, herr2, hn2⟩ := ih (j + 1) m.Serialize
        (bufs.drop (ceilDiv m.Len c)) hrest hne hdl
        (fun q hq => hpc q (List.mem_of_mem_drop hq))
      have hrun := readMany_append _ _ _ _ _ _ _ hrun1 hrun2
      rw [hsplit] at hrun
      have hb2 : 1 ≤ (bufs.drop (ceilDiv m.Len c)).length := by
        rcases hl : (bufs.drop (ceilDiv m.Len c)).length with _ | k
        · have hx : bufs.drop (ceilDiv m.Len c) = [] := List.eq_nil_of_length_eq_zero hl
          rw [hx] at hrun2
          simp only [Reader.readMany, Except.ok.injEq, Prod.mk.injEq] at hrun2
          rw [← hrun2.1] at hdone
          exact absurd hdone (by simp)
        · omega
      refine ⟨r2, rs1 ++ rs2, hrun, hdone, ?_, ?_, ?_⟩
      · simp [hch1, hch2]
      · rw [List.map_append, herr1, herr2, if_neg hend,
          replicate_glue none (some Error.EOF) _ _ hpos hb2]
        congr 2
        rw [List.length_drop] at hb2 ⊢
        omega
      · intro res hres
        rcases List.mem_append.mp hres with h | h
        · exact hn1 res h
        · exact hn2 res h

theorem ceilDiv_bounds (L c : Nat) (hc : 1 ≤ c) (hL : 1 ≤ L) :
    c * (ceilDiv L c - 1) < L ∧ L ≤ c * ceilDiv L c := by
  have h1 : ceilDiv L c * c ≤ L + c - 1 := Nat.div_mul_le_self _ _
  have h2 : L + c - 1 < c * (ceilDiv L c + 1) := Nat.lt_mul_div_succ _ (by omega)
  have hp := ceilDiv_pos L c hc hL
  obtain ⟨k, hk⟩ : ∃ k, ceilDiv L c = k + 1 := ⟨_, (Nat.sub_add_cancel hp).symm⟩
  rw [hk] at h1 h2 ⊢
  have e1 : (k + 1) * c = c * k + c := by ring
  have e2 : c * (k + 1 + 1) = c * k + c + c := by ring
  have e3 : c * (k + 1) = c * k + c := by ring
  rw [e1] at h1
  rw [e2] at h2
  simp only [Nat.add_sub_cancel]
  rw [e3]
  constructor <;> omega

/-- The lengths of the slices of an encoding: `c` for all but the last, and what is
left for the last. -/
theorem slices_lengths (c : Nat) (e : List Byte) (hc : 1 ≤ c) (he : 1 ≤ e.length) :
    (slices c e).map List.length
      = List.replicate (ceilDiv e.length c - 1) c
        ++ [e.length - c * (ceilDiv e.length c - 1)] := by
  obtain ⟨hlo, hhi⟩ := ceilDiv_bounds e.length c hc he
  have hp := ceilDiv_pos e.length c hc he
  obtain ⟨k, hk⟩ : ∃ k, ceilDiv e.length c = k + 1 := ⟨_, (Nat.sub_add_cancel hp).symm⟩
  rw [hk] at hlo hhi
  simp only [Nat.add_sub_cancel] at hlo
  rw [Nat.mul_add, Nat.mul_one] at hhi
  rw [slices, hk, List.range_succ, List.map_append, List.map_append, List.map_map]
  simp only [Nat.add_sub_cancel, List.map_cons, List.map_nil, List.length_take,
    List.length_drop]
  congr 1
  · rw [← List.length_range k, ← List.map_const']
    rw [List.length_range]
    apply List.map_congr_left
    intro t ht
    have htk : t + 1 ≤ k := List.mem_range.mp ht
    have hm : c * (t + 1) ≤ c * k := Nat.mul_le_mul_left c htk
    rw [Nat.mul_add, Nat.mul_one] at hm
    simp only [Function.comp, List.length_take, List.length_drop]
    omega
  · congr 1
    omega

theorem encAll_append (a b : List Metric) : encAll (a ++ b) = encAll a ++ encAll b := by
  simp [encAll]

theorem encAll_ne_nil_of_getLast? (l : List Metric) (last : Metric)
    (h : l.getLast? = some last) (hpos : last.Serialize ≠ []) : encAll l ≠ [] := by
  have hl : l.dropLast ++ [last] = l := List.dropLast_append_getLast? last (by rw [h]; rfl)
  rw [← hl, encAll_append, encAll_cons, encAll_nil, List.append_nil]
  intro h0
  exact hpos (List.append_eq_nil.mp h0).2

theorem encAll_drop_ne_nil (ms : List Metric) (last : Metric) (h : ms.getLast? = some last)
    (hpos : last.Serialize ≠ []) (j : Nat) (hj : j < ms.length) : encAll (ms.drop j) ≠ [] := by
  apply encAll_ne_nil_of_getLast? _ last _ hpos
  rw [List.getLast?_drop, if_neg (by omega), h]

/-- While the reader is not done after a sequence of calls, none of them has returned
`io.EOF`. -/
theorem readMany_err_none (bufs : List (List Byte)) : ∀ (r r0 : Reader) (rs : List ReadResult),
    r.readMany bufs = Except.ok (r0, rs) → r0.state ≠ State.done →
    ∀ x ∈ rs, x.err = none := by
  induction bufs with
  | nil =>
    intro r r0 rs h _ x hx
    simp only [Reader.readMany, Except.ok.injEq, Prod.mk.injEq] at h
    rw [← h.2] at hx
    exact absurd hx (List.not_mem_nil _)
  | cons p ps ih =>
    intro r r0 rs h hnd x hx
    obtain ⟨res, rs1, hres, hrest, rfl⟩ := readMany_cons_inv r p ps r0 rs h
    rcases List.mem_cons.mp hx with rfl | hx
    · rcases err_cases x.err with he | he
      · exact he
      · have hd := Read_eof_done r p x hres he
        rw [readMany_done ps x.r hd] at hrest
        simp only [Except.ok.injEq, Prod.mk.injEq] at hrest
        rw [← hrest.1] at hnd
        exact absurd hd hnd
    · exact ih res.r r0 rs1 hrest hnd x hx

/-- The call that hands out the last pending byte, over a batch whose last metric is
not empty: it returns `io.EOF`, unless it is the call that enters state `split` at the
last metric with a buffer of exactly that metric's length. -/
theorem final_call (r : Reader) (p : List Byte) (res : ReadResult) (last : Metric)
    (hwf : ∀ m ∈ r.metrics, m.WellFormed) (hinv : r.Inv)
    (hlast : r.metrics.getLast? = some last) (hpos : last.Serialize ≠ [])
    (hres : r.Read p = Except.ok res) (hpend : r.pending ≠ []) (hdone : res.r.pending = []) :
    res.err = some Error.EOF ∨
      (res.err = none ∧ res.n = p.length ∧ p.length = last.Len ∧
        res.chunk = last.Serialize ∧
        res.r = ⟨r.metrics, last.Serialize, State.split, r.metrics.length - 1, last.Len⟩) := by
  cases hst : r.state with
  | done => simp [Reader.pending, hst] at hpend
  | split =>
    have hinv2 := hinv
    simp only [Reader.Inv, hst] at hinv2
    obtain ⟨m, hm, hbuf, hB⟩ := hinv2
    have hjlt : r.iM < r.metrics.length := (List.getElem?_eq_some.mp hm).1
    by_cases hlt : r.iB + min p.length (r.buf.length - r.iB) < r.buf.length
    · rw [Read_split_more r p hst hB hlt] at hres
      simp only [Except.ok.injEq] at hres
      rw [← hres] at hdone
      simp only [Reader.pending, hst, List.append_eq_nil, List.drop_eq_nil_iff] at hdone
      omega
    · have hge : r.buf.length ≤ r.iB + min p.length (r.buf.length - r.iB) := by omega
      by_cases hend : r.iM + 1 = r.metrics.length
      · rw [Read_split_last r p hst hB hge hend] at hres
        simp only [Except.ok.injEq] at hres
        left
        rw [← hres]
      · rw [Read_split_next r p hst hB hge hend] at hres
        simp only [Except.ok.injEq] at hres
        rw [← hres] at hdone
        simp only [Reader.pending] at hdone
        exact absurd hdone (encAll_drop_ne_nil _ last hlast hpos _ (by omega))
  | normal =>
    have hinv2 := hinv
    simp only [Reader.Inv, hst] at hinv2
    obtain ⟨hj, hB⟩ := hinv2
    obtain ⟨j, w, hj1, henc, hle, hlt, hnil, hcase⟩ := Read_normal r p hst hwf hj hB
    rcases hcase with ⟨h1, h2, h3⟩ | ⟨m, h1, h2, hw, h3⟩ | ⟨m, h1, h2, hw, h3⟩
    · rw [h3] at hres
      simp only [Except.ok.injEq] at hres
      left
      rw [← hres]
    · have hjlt : j < r.metrics.length := (List.getElem?_eq_some.mp h1).1
      rw [h3] at hres
      simp only [Except.ok.injEq] at hres
      rw [← hres] at hdone
      simp only [Reader.pending, hst] at hdone
      exact absurd hdone (encAll_drop_ne_nil _ last hlast hpos _ hjlt)
    · have hjlt : j < r.metrics.length := (List.getElem?_eq_some.mp h1).1
      have hmw := wf_of_getElem? hwf h1
      rw [h3] at hres
      simp only [Except.ok.injEq] at hres
      rw [← hres] at hdone
      simp only [Reader.pending, List.append_eq_nil, List.drop_eq_nil_iff] at hdone
      obtain ⟨hd1, hd2⟩ := hdone
      have hjend : j + 1 = r.metrics.length := by
        by_contra hne
        exact encAll_drop_ne_nil _ last hlast hpos (j + 1) (by omega) hd2
      have hml : m = last := by
        rw [List.getLast?_eq_getElem?, ← hjend, Nat.add_sub_cancel, h1] at hlast
        exact Option.some.inj hlast
      subst hml
      have hlen : m.Serialize.length = m.Len := hmw.len_eq.symm
      have hpl : p.length = m.Serialize.length := by omega
      right
      rw [← hres]
      refine ⟨rfl, by simp [hpl], by omega, ?_, ?_⟩
      · simp [ReadResult.chunk, copy_same_length p m.Serialize hpl, hpl]
      · simp only [hpl, Nat.min_self, ← hjend, Nat.add_sub_cancel, hlen]

/-- The loop of the `normal` case, started inside the batch with enough fuel, whatever
the metrics do: it ends by `return` at the end of the batch or by `break` at an index
inside the batch, and touches no field of the reader but `iM` and `state`. -/
theorem normalLoop_shape (fuel : Nat) : ∀ (r : Reader) (p : List Byte) (i : Nat),
    r.iM < r.metrics.length → r.metrics.length - r.iM ≤ fuel →
    ∃ j p1 i1, r.iM ≤ j ∧
      ((j = r.metrics.length ∧ normalLoop fuel r p i
          = Except.ok (LoopExit.returned { r with iM := j, state := State.done } p1 i1)) ∨
       (j < r.metrics.length ∧ normalLoop fuel r p i
          = Except.ok (LoopExit.broke { r with iM := j } p1 i1))) := by
  induction fuel with
  | zero => intro r p i hj hf; omega
  | succ fuel ih =>
    intro r p i hj hf
    obtain ⟨m, hm⟩ : ∃ m, r.metrics[r.iM]? = some m := ⟨_, List.getElem?_eq_getElem hj⟩
    by_cases hfit : m.Len < (p.drop i).length
    · by_cases hend : r.iM + 1 = r.metrics.length
      · refine ⟨r.iM + 1, p.take i ++ m.CopyTo (p.drop i), i + m.Len, Nat.le_succ _,
          Or.inl ⟨hend, ?_⟩⟩
        simp only [normalLoop, hm, hfit, hend, if_true]
      · obtain ⟨j, p1, i1, hj1, hcase⟩ :=
          ih { r with iM := r.iM + 1 } (p.take i ++ m.CopyTo (p.drop i)) (i + m.Len)
            (by show r.iM + 1 < r.metrics.length; omega)
            (by show r.metrics.length - (r.iM + 1) ≤ fuel; omega)
        have hj2 : r.iM + 1 ≤ j := hj1
        have hstep : normalLoop (fuel + 1) r p i
            = normalLoop fuel { r with iM := r.iM + 1 } (p.take i ++ m.CopyTo (p.drop i))
                (i + m.Len) := by
          simp only [normalLoop, hm, hfit, hend, if_true, if_false]
        refine ⟨j, p1, i1, by omega, ?_⟩
        rw [hstep]
        exact hcase
    · refine ⟨r.iM, p, i, le_refl _, Or.inr ⟨hj, ?_⟩⟩
      simp only [normalLoop, hm, hfit, if_false]

/-- One call of `Read` on a reader satisfying the invariant, whatever the metrics do:
the call returns without a fault, keeps the invariant and the batch, and does not
move the cursor `(iM, iB)` backwards. -/
theorem Read_safe (r : Reader) (p : List Byte) (hinv : r.Inv) :
    ∃ res, r.Read p = Except.ok res ∧ res.r.Inv ∧ res.r.metrics = r.metrics ∧
      r.iM ≤ res.r.iM ∧ (res.r.iM = r.iM → r.iB ≤ res.r.iB) := by
  cases hst : r.state with
  | done => exact ⟨_, Read_done r p hst, hinv, rfl, le_refl _, fun _ => le_refl _⟩
  | split =>
    have hinv2 := hinv
    simp only [Reader.Inv, hst] at hinv2
    obtain ⟨m, hm, hbuf, hB⟩ := hinv2
    have hjlt : r.iM < r.metrics.length := (List.getElem?_eq_some.mp hm).1
    by_cases hlt : r.iB + min p.length (r.buf.length - r.iB) < r.buf.length
    · refine ⟨_, Read_split_more r p hst hB hlt, ?_, rfl, le_refl _, fun _ => Nat.le_add_right _ _⟩
      simp only [Reader.Inv, hst]
      exact ⟨m, hm, hbuf, le_of_lt hlt⟩
    · have hge : r.buf.length ≤ r.iB + min p.length (r.buf.length - r.iB) := by omega
      by_cases hend : r.iM + 1 = r.metrics.length
      · refine ⟨_, Read_split_last r p hst hB hge hend, ?_, rfl, Nat.le_succ _, fun h => ?_⟩
        · simp only [Reader.Inv]; exact hend
        · exact absurd h (Nat.succ_ne_self _)
      · refine ⟨_, Read_split_next r p hst hB hge hend, ?_, rfl, Nat.le_succ _, fun h => ?_⟩
        · simp only [Reader.Inv]; exact ⟨by omega, trivial⟩
        · exact absurd h (Nat.succ_ne_self _)
  | normal =>
    have hinv2 := hinv
    simp only [Reader.Inv, hst] at hinv2
    obtain ⟨hj, hB⟩ := hinv2
    obtain ⟨j, p1, i1, hj1, hcase⟩ :=
      normalLoop_shape (r.metrics.length - r.iM + 1) r p 0 hj (by omega)
    rcases hcase with ⟨hjl, hl⟩ | ⟨hjl, hl⟩
    · refine ⟨⟨{ r with iM := j, state := State.done }, p1, i1, some Error.EOF⟩,
        by simp only [Reader.Read, hst, hl], ?_, rfl, hj1, fun h => ?_⟩
      · simp only [Reader.Inv]; exact hjl
      · have h1 : j = r.iM := h
        omega
    · obtain ⟨m, hm⟩ : ∃ m, r.metrics[j]? = some m := ⟨_, List.getElem?_eq_getElem hjl⟩
      by_cases hi : i1 = 0
      · refine ⟨⟨⟨r.metrics, m.Serialize, State.split, j,
            0 + (0 + (copy p1 (m.Serialize.drop 0)).2)⟩,
          (copy p1 (m.Serialize.drop 0)).1, 0 + (copy p1 (m.Serialize.drop 0)).2, none⟩,
          ?_, ?_, rfl, hj1, fun _ => ?_⟩
        · simp only [Reader.Read, hst, hl, hi, if_true, hm, hB, Nat.zero_le]
        · simp only [Reader.Inv]
          refine ⟨m, hm, rfl, ?_⟩
          simp only [copy_snd, List.drop_zero, Nat.zero_add]
          exact Nat.min_le_right _ _
        · rw [hB]; exact Nat.zero_le _
      · refine ⟨⟨{ r with iM := j }, p1, i1, none⟩,
          by simp only [Reader.Read, hst, hl, hi, if_false], ?_, rfl, hj1, fun _ => le_refl _⟩
        simp only [Reader.Inv, hst]
        exact ⟨hjl, hB⟩

theorem readMany_safe (bufs : List (List Byte)) : ∀ (r : Reader), r.Inv →
    ∃ r1 rs, r.readMany bufs = Except.ok (r1, rs) ∧ r1.Inv ∧ r1.metrics = r.metrics := by
  induction bufs with
  | nil => intro r hinv; exact ⟨r, [], rfl, hinv, rfl⟩
  | cons p ps ih =>
    intro r hinv
    obtain ⟨res, hres, hi, hm, _, _⟩ := Read_safe r p hinv
    obtain ⟨r1, rs, h1, h2, h3⟩ := ih res.r hi
    exact ⟨r1, res :: rs, readMany_cons r p ps res r1 rs hres h1, h2, by rw [h3, hm]⟩

theorem reachable_safe (ms : List Metric) (hne : ms ≠ []) (r : Reader) (h : Reachable ms r) :
    r.Inv ∧ r.metrics = ms := by
  obtain ⟨bufs, rs, hr⟩ := h
  obtain ⟨r1, rs1, h1, h2, h3⟩ := readMany_safe bufs (NewReader ms) (newReader_inv ms hne)
  rw [hr] at h1
  simp only [Except.ok.injEq, Prod.mk.injEq] at h1
  rw [h1.1]
  exact ⟨h2, h3⟩

theorem encAll_take_length_mono (l : List Metric) (a b : Nat) (h : a ≤ b) :
    (encAll (l.take a)).length ≤ (encAll (l.take b)).length := by
  obtain ⟨d, rfl⟩ := Nat.exists_eq_add_of_le h
  rw [List.take_add, encAll_append, List.length_append]
  exact Nat.le_add_right _ _

theorem take_succ_of_getElem? (l : List Metric) (t : Nat) (m : Metric) (h : l[t]? = some m) :
    l.take (t + 1) = l.take t ++ [m] := by
  rw [List.take_succ, h]
  rfl

/-- What the loop copied is the encoding of the metrics it passed. -/
theorem loop_written (ms : List Metric) (a j : Nat) (haj : a ≤ j) (w : List Byte)
    (h : encAll (ms.drop a) = w ++ encAll (ms.drop j)) :
    w = encAll ((ms.drop a).take (j - a)) := by
  have h1 : ms.drop a = (ms.drop a).take (j - a) ++ ms.drop j := by
    have h2 := (List.take_append_drop (j - a) (ms.drop a)).symm
    rw [List.drop_drop] at h2
    have h3 : a + (j - a) = j := by omega
    rw [h3] at h2
    exact h2
  have h4 : encAll (ms.drop a) = encAll ((ms.drop a).take (j - a)) ++ encAll (ms.drop j) := by
    conv_lhs => rw [h1]
    exact encAll_append _ _
  rw [h] at h4
  exact List.append_cancel_right h4

/-- A call in state `normal` at a non-empty metric that fits strictly in `p`: the call
copies the longest run of whole metrics whose total length stays below `len(p)`, and
nothing else. -/
theorem Read_normal_pack (r : Reader) (p : List Byte) (m : Metric)
    (hn : r.state = State.normal) (hwf : ∀ x ∈ r.metrics, x.WellFormed)
    (hm : r.metrics[r.iM]? = some m) (hpos : 0 < m.Len) (hfit : m.Len < p.length) :
    ∃ t, 1 ≤ t ∧ r.iM + t ≤ r.metrics.length ∧
      (∀ t1, t1 ≤ r.metrics.length - r.iM →
        ((encAll ((r.metrics.drop r.iM).take t1)).length < p.length ↔ t1 ≤ t)) ∧
      r.Read p = Except.ok
        ⟨{ r with iM := r.iM + t,
                  state := if r.iM + t = r.metrics.length then State.done else State.normal },
          encAll ((r.metrics.drop r.iM).take t)
            ++ p.drop (encAll ((r.metrics.drop r.iM).take t)).length,
          (encAll ((r.metrics.drop r.iM).take t)).length,
          if r.iM + t = r.metrics.length then some Error.EOF else none⟩ := by
  have hj : r.iM < r.metrics.length := (List.getElem?_eq_some.mp hm).1
  obtain ⟨j, w, hj1, henc, hle, hlt, hnil, hcase⟩ :=
    normalLoop_spec (r.metrics.length - r.iM + 1) r p 0 hwf hj (by omega) (Nat.zero_le _)
  simp only [Nat.zero_add] at hle hlt hcase
  have hw := loop_written r.metrics r.iM j hj1 w henc
  have hsp : splice p 0 w = w ++ p.drop w.length := by simp [splice]
  have hgt : r.iM < j := by
    rcases hcase with ⟨_, h2, _⟩ | ⟨m1, h1, h2, _⟩
    · exact h2
    · rcases Nat.lt_or_ge r.iM j with h | h
      · exact h
      · have he : j = r.iM := by omega
        have hw0 := hnil he
        rw [he, hm] at h1
        rw [hw0, ← Option.some.inj h1] at h2
        simp only [List.length_nil, Nat.sub_zero] at h2
        exact absurd hfit h2
  have hwlt := hlt hgt
  have hmono : ∀ t1, t1 ≤ j - r.iM →
      (encAll ((r.metrics.drop r.iM).take t1)).length ≤ w.length := by
    intro t1 ht1
    rw [hw]
    exact encAll_take_length_mono _ _ _ ht1
  have hwpos : w.length ≠ 0 := by
    have h1 := hmono 1 (by omega)
    have h2 : (r.metrics.drop r.iM).take 1 = [m] := by
      have h3 : (r.metrics.drop r.iM)[0]? = some m := by
        rw [List.getElem?_drop]; exact hm
      have h4 := take_succ_of_getElem? (r.metrics.drop r.iM) 0 m h3
      simpa using h4
    rw [h2, encAll_cons, encAll_nil, List.append_nil, ← (wf_of_getElem? hwf hm).len_eq] at h1
    omega
  have hjt : r.iM + (j - r.iM) = j := by omega
  refine ⟨j - r.iM, by omega, ?_, ?_, ?_⟩
  · rcases hcase with ⟨h1, _, _⟩ | ⟨m1, h1, _, _⟩
    · omega
    · have := (List.getElem?_eq_some.mp h1).1
      omega
  · intro t1 ht1
    constructor
    · intro hlen
      by_contra hnot
      rcases hcase with ⟨h1, _, _⟩ | ⟨m1, h1, h2, _⟩
      · omega
      · have h3 : (r.metrics.drop r.iM)[j - r.iM]? = some m1 := by
          rw [List.getElem?_drop, hjt]; exact h1
        have h4 := take_succ_of_getElem? (r.metrics.drop r.iM) (j - r.iM) m1 h3
        have h5 := encAll_take_length_mono (r.metrics.drop r.iM) (j - r.iM + 1) t1 (by omega)
        rw [h4, encAll_append, encAll_cons, encAll_nil, List.append_nil, List.length_append,
          ← hw, ← (wf_of_getElem? hwf h1).len_eq] at h5
        omega
    · intro ht
      have := hmono t1 ht
      omega
  · rw [hjt, ← hw, ← hsp]
    rcases hcase with ⟨h1, _, h3⟩ | ⟨m1, h1, _, h3⟩
    · simp only [Reader.Read, hn, h3, h1, if_true]
    · have hne : j ≠ r.metrics.length := by
        have := (List.getElem?_eq_some.mp h1).1
        omega
      simp only [Reader.Read, hn, h3, hwpos, if_false, hne]

/-- The loop of the `normal` case over metrics whose `CopyTo` keeps the length of its
destination: the buffer keeps its length, and the count stays within it. -/
theorem normalLoop_bound (fuel : Nat) : ∀ (r : Reader) (p : List Byte) (i : Nat),
    (∀ m ∈ r.metrics, m.KeepsLength) → i ≤ p.length →
    (∀ r1 p1 i1, normalLoop fuel r p i = Except.ok (LoopExit.broke r1 p1 i1) →
      r1.metrics = r.metrics ∧ r1.buf = r.buf ∧ r1.iB = r.iB ∧
        p1.length = p.length ∧ i1 ≤ p.length) ∧
    (∀ r1 p1 i1, normalLoop fuel r p i = Except.ok (LoopExit.returned r1 p1 i1) →
      p1.length = p.length ∧ i1 ≤ p.length) := by
  induction fuel with
  | zero =>
    intro r p i _ _
    constructor <;> intro r1 p1 i1 h <;> simp [normalLoop] at h
  | succ fuel ih =>
    intro r p i hk hi
    cases hm : r.metrics[r.iM]? with
    | none => constructor <;> intro r1 p1 i1 h <;> simp [normalLoop, hm] at h
    | some m =>
      have hmk : m.KeepsLength := hk m (List.getElem?_mem hm)
      by_cases hfit : m.Len < (p.drop i).length
      · have hlen1 : (p.take i ++ m.CopyTo (p.drop i)).length = p.length := by
          rw [List.length_append, hmk (p.drop i), List.length_take, List.length_drop]
          omega
        have hi1 : i + m.Len ≤ p.length := by
          rw [List.length_drop] at hfit
          omega
        by_cases hend : r.iM + 1 = r.metrics.length
        · constructor
          · intro r1 p1 i1 h
            simp only [normalLoop, hm, hfit, hend, if_true, Except.ok.injEq,
              reduceCtorEq] at h
          · intro r1 p1 i1 h
            simp only [normalLoop, hm, hfit, hend, if_true, Except.ok.injEq,
              LoopExit.returned.injEq] at h
            rw [← h.2.1, ← h.2.2]
            exact ⟨hlen1, hi1⟩
        · have hstep : normalLoop (fuel + 1) r p i
              = normalLoop fuel { r with iM := r.iM + 1 } (p.take i ++ m.CopyTo (p.drop i))
                  (i + m.Len) := by
            simp only [normalLoop, hm, hfit, hend, if_true, if_false]
          obtain ⟨ih1, ih2⟩ := ih { r with iM := r.iM + 1 }
            (p.take i ++ m.CopyTo (p.drop i)) (i + m.Len) hk (by rw [hlen1]; exact hi1)
          rw [hstep, ← hlen1]
          exact ⟨ih1, ih2⟩
      · constructor
        · intro r1 p1 i1 h
          simp only [normalLoop, hm, hfit, if_false, Except.ok.injEq,
            LoopExit.broke.injEq] at h
          rw [← h.1, ← h.2.1, ← h.2.2]
          exact ⟨rfl, rfl, rfl, rfl, hi⟩
        · intro r1 p1 i1 h
          simp only [normalLoop, hm, hfit, if_false, Except.ok.injEq, reduceCtorEq] at h

/-- Whatever the reader, over metrics whose `CopyTo` keeps the length of its
destination a call of `Read` that returns gives a count within the buffer and leaves
the buffer its length. -/
theorem Read_bound (r : Reader) (p : List Byte) (res : ReadResult)
    (hk : ∀ m ∈ r.metrics, m.KeepsLength) (h : r.Read p = Except.ok res) :
    res.n ≤ p.length ∧ res.p.length = p.length := by
  obtain ⟨hb1, hb2⟩ := normalLoop_bound (r.metrics.length - r.iM + 1) r p 0 hk (Nat.zero_le _)
  unfold Reader.Read at h
  split at h
  · simp only [Except.ok.injEq] at h
    rw [← h]
    exact ⟨Nat.zero_le _, rfl⟩
  · split at h
    · simp at h
    · rename_i r1 p1 i hl
      simp only [Except.ok.injEq] at h
      rw [← h]
      obtain ⟨h1, h2⟩ := hb2 r1 p1 i hl
      exact ⟨h2, h1⟩
    · rename_i r1 p1 i hl
      obtain ⟨_, _, _, h1, h2⟩ := hb1 r1 p1 i hl
      split at h
      · rename_i hi
        split at h
        · simp at h
        · dsimp only at h
          split at h
          · simp only [Except.ok.injEq] at h
            rw [← h]
            simp only [copy_snd, copy_fst_length, hi, Nat.zero_add]
            exact ⟨by omega, h1⟩
          · simp at h
      · simp only [Except.ok.injEq] at h
        rw [← h]
        exact ⟨h2, h1⟩
  · split at h
    · dsimp only at h
      split at h
      · split at h <;>
        · simp only [Except.ok.injEq] at h
          rw [← h]
          simp only [copy_snd, copy_fst_length]
          exact ⟨Nat.min_le_left _ _, trivial⟩
      · simp only [Except.ok.injEq] at h
        rw [← h]
        simp only [copy_snd, copy_fst_length]
        exact ⟨Nat.min_le_left _ _, trivial⟩
    · simp at h

/-- The loop of the `normal` case stops exactly at a metric whose length equals the
capacity left: given that the `t` metrics before it fit strictly together and that the
metric `m` at index `iM + t` is as long as what they leave of `p`, the loop copies those
`t` metrics and breaks at `m`, without copying it. -/
theorem normalLoop_boundary (r : Reader) (p : List Byte)
    (hwf : ∀ x ∈ r.metrics, x.WellFormed) (t : Nat) (m : Metric)
    (hm : r.metrics[r.iM + t]? = some m)
    (ht : 1 ≤ t → (encAll ((r.metrics.drop r.iM).take t)).length < p.length)
    (heq : (encAll ((r.metrics.drop r.iM).take t)).length + m.Len = p.length) :
    normalLoop (r.metrics.length - r.iM + 1) r p 0
      = Except.ok (LoopExit.broke { r with iM := r.iM + t }
          (encAll ((r.metrics.drop r.iM).take t)
            ++ p.drop (encAll ((r.metrics.drop r.iM).take t)).length)
          (encAll ((r.metrics.drop r.iM).take t)).length) := by
  have hjt : r.iM + t < r.metrics.length := (List.getElem?_eq_some.mp hm).1
  have hj : r.iM < r.metrics.length := by omega
  obtain ⟨j, w, hj1, henc, hle, hlt, hnil, hcase⟩ :=
    normalLoop_spec (r.metrics.length - r.iM + 1) r p 0 hwf hj (by omega) (Nat.zero_le _)
  simp only [Nat.zero_add] at hle hlt hcase
  have hw := loop_written r.metrics r.iM j hj1 w henc
  have hsp : splice p 0 w = w ++ p.drop w.length := by simp [splice]
  have hmt : (r.metrics.drop r.iM)[t]? = some m := by
    rw [List.getElem?_drop]; exact hm
  have hsucc : (encAll ((r.metrics.drop r.iM).take (t + 1))).length
      = (encAll ((r.metrics.drop r.iM).take t)).length + m.Len := by
    rw [take_succ_of_getElem? _ t m hmt, encAll_append, encAll_cons, encAll_nil,
      List.append_nil, List.length_append, ← (wf_of_getElem? hwf hm).len_eq]
  have hjeq : j = r.iM + t := by
    rcases Nat.lt_trichotomy j (r.iM + t) with hlt1 | heq1 | hgt1
    · exfalso
      rcases hcase with ⟨h1, _, _⟩ | ⟨m1, h1, h2, _⟩
      · omega
      · have h3 : (r.metrics.drop r.iM)[j - r.iM]? = some m1 := by
          rw [List.getElem?_drop]
          have : r.iM + (j - r.iM) = j := by omega
          rw [this]; exact h1
        have h4 := take_succ_of_getElem? (r.metrics.drop r.iM) (j - r.iM) m1 h3
        have h5 := encAll_take_length_mono (r.metrics.drop r.iM) (j - r.iM + 1) t (by omega)
        rw [h4, encAll_append, encAll_cons, encAll_nil, List.append_nil, List.length_append,
          ← hw, ← (wf_of_getElem? hwf h1).len_eq] at h5
        have := ht (by omega)
        omega
    · exact heq1
    · exfalso
      have h1 := hlt (by omega)
      have h5 := encAll_take_length_mono (r.metrics.drop r.iM) (t + 1) (j - r.iM) (by omega)
      rw [← hw, hsucc] at h5
      omega
  subst hjeq
  have hwt : r.iM + t - r.iM = t := by omega
  rw [hwt] at hw
  rcases hcase with ⟨h1, _, _⟩ | ⟨m1, _, _, h3⟩
  · omega
  · rw [h3, hsp, hw]

/-! ## The claims about `NewReader` and `Read` -/

/-- C1 (round trip): over a non-empty batch of metrics that keep their contract, and
for every sequence of buffers of size at least 1, reading until `io.EOF` first comes
takes finitely many calls, and the chunks `p[0:n]` of those calls, in call order,
concatenate to the encodings of the metrics in batch order. -/
theorem read_round_trip (ms : List Metric) (hne : ms ≠ []) (hwf : ∀ m ∈ ms, m.WellFormed)
    (bufs : Nat → List Byte) (hb : ∀ k, 1 ≤ (bufs k).length) :
    ∃ N r1 rs last,
      (NewReader ms).readMany ((List.range (N + 1)).map bufs) = Except.ok (r1, rs ++ [last]) ∧
      (∀ res ∈ rs, res.err = none) ∧ last.err = some Error.EOF ∧
      ((rs ++ [last]).map ReadResult.chunk).flatten = encAll ms := by
  obtain ⟨N, r1, rs, last, _, hrun, hnil, hlast, _, hcat⟩ :=
    drain (NewReader ms).fuelLeft (NewReader ms) bufs hwf (newReader_inv ms hne)
      (by simp [NewReader]) (le_refl _) hb
  exact ⟨N, r1, rs, last, hrun, hnil, hlast, by rw [hcat, newReader_pending]⟩

theorem read_round_trip_witness :
    ∃ N r1 rs last,
      (NewReader ([[1, 2, 3], [4, 5]].map Metric.ofBytes)).readMany
          ((List.range (N + 1)).map (fun _ => [0, 0])) = Except.ok (r1, rs ++ [last]) ∧
      (∀ res ∈ rs, res.err = none) ∧ last.err = some Error.EOF ∧
      ((rs ++ [last]).map ReadResult.chunk).flatten
        = encAll ([[1, 2, 3], [4, 5]].map Metric.ofBytes) :=
  read_round_trip ([[1, 2, 3], [4, 5]].map Metric.ofBytes) (by simp)
    (ofBytes_all_wellFormed _) (fun _ => [0, 0]) (fun _ => by simp)

/-- C2 as stated fails when the last metric is exactly as long as the buffer: for one
1-byte metric and 1-byte buffers, the first call hands out the final byte with a nil
error (leaving the reader in state `split`), and `io.EOF` first comes with the second
call, which returns no byte. -/
theorem read_eof_timing_counterexample :
    (NewReader [Metric.ofBytes [7]]).readMany [[0], [0]]
      = Except.ok (⟨[Metric.ofBytes [7]], [7], State.done, 1, 0⟩,
          [⟨⟨[Metric.ofBytes [7]], [7], State.split, 0, 1⟩, [7], 1, none⟩,
           ⟨⟨[Metric.ofBytes [7]], [7], State.done, 1, 0⟩, [0], 0, some Error.EOF⟩]) ∧
    encAll [Metric.ofBytes [7]] = [7] :=
  ⟨rfl, rfl⟩

/-- C2, amended (end-of-stream timing): over a batch whose last metric has at least
one encoded byte, take the call whose chunk completes the encoding of the batch. No
earlier call has returned `io.EOF`, and the call returns a positive count. It returns
`io.EOF` itself, except when it is the call that enters state `split` at the last
metric with a buffer of exactly that metric's length: then it returns
`(len(p), nil)` with the whole last metric, and the next call, whatever its buffer,
returns `(0, io.EOF)`. -/
theorem read_eof_timing (ms : List Metric) (hwf : ∀ m ∈ ms, m.WellFormed) (last : Metric)
    (hlast : ms.getLast? = some last) (hpos : last.Serialize ≠ [])
    (bufs : List (List Byte)) (p : List Byte) (r1 : Reader) (rs : List ReadResult)
    (res : ReadResult)
    (hrun : (NewReader ms).readMany (bufs ++ [p]) = Except.ok (r1, rs ++ [res]))
    (hbefore : ((rs.map ReadResult.chunk).flatten).length < (encAll ms).length)
    (hafter : ((rs ++ [res]).map ReadResult.chunk).flatten = encAll ms) :
    (∀ x ∈ rs, x.err = none) ∧ 1 ≤ res.n ∧
    (res.err = some Error.EOF ∨
      (res.err = none ∧ res.n = p.length ∧ p.length = last.Len ∧
        res.chunk = last.Serialize ∧ res.r.state = State.split ∧
        ∀ q, res.r.Read q
          = Except.ok ⟨⟨ms, last.Serialize, State.done, ms.length, 0⟩, q, 0,
              some Error.EOF⟩)) := by
  have hne : ms ≠ [] := by
    intro h0
    rw [h0] at hlast
    exact Option.noConfusion hlast
  obtain ⟨r0, rs0, h0, hinv0, hms0, _, hpend0, _⟩ :=
    readMany_spec bufs (NewReader ms) hwf (newReader_inv ms hne)
  have hms0 : r0.metrics = ms := hms0
  obtain ⟨res0, hres0, hs⟩ := Read_step r0 p (by rw [hms0]; exact hwf) hinv0
  have hall := readMany_append bufs _ r0 res0.r [p] rs0 [res0] h0
    (readMany_cons r0 p [] res0 res0.r [] hres0 rfl)
  rw [hrun] at hall
  simp only [Except.ok.injEq, Prod.mk.injEq] at hall
  obtain ⟨e1, e2⟩ := List.append_inj' hall.2 rfl
  have e3 : res = res0 := by simpa using e2
  subst e1 e3
  rw [newReader_pending] at hpend0
  have hchunk : r0.pending = res.chunk := by
    have h1 : (rs.map ReadResult.chunk).flatten ++ res.chunk = encAll ms := by
      simpa using hafter
    rw [hpend0] at h1
    exact (List.append_cancel_left h1).symm
  have hrest : res.r.pending = [] := by
    have h1 := hs.pending_eq
    rw [hchunk] at h1
    exact List.self_eq_append_right.mp h1
  have hpne : r0.pending ≠ [] := by
    intro h0
    rw [hpend0, h0] at hbefore
    simp at hbefore
  have hnd : r0.state ≠ State.done := by
    intro hd
    exact hpne (by simp [Reader.pending, hd])
  have hn1 : 1 ≤ res.n := by
    rcases Nat.eq_zero_or_pos res.n with h0 | h0
    · rw [hchunk] at hpne
      simp [ReadResult.chunk, h0] at hpne
    · exact h0
  refine ⟨readMany_err_none bufs _ r0 rs h0 hnd, hn1, ?_⟩
  rcases final_call r0 p res last (by rw [hms0]; exact hwf) hinv0 (by rw [hms0]; exact hlast)
    hpos hres0 hpne hrest with he | ⟨he, hn, hp, hc, hr⟩
  · exact Or.inl he
  · refine Or.inr ⟨he, hn, hp, hc, by rw [hr], fun q => ?_⟩
    have hlen : last.Serialize.length = last.Len :=
      (hwf last (List.mem_of_getLast?_eq_some hlast)).len_eq.symm
    have hpos1 : 1 ≤ ms.length := List.length_pos.mpr hne
    rw [hr, hms0, Read_split_last _ q rfl (by simp [hlen]) (by simp [hlen])
      (by show ms.length - 1 + 1 = ms.length; omega)]
    have hd : last.Serialize.drop last.Len = [] := List.drop_eq_nil_of_le (by omega)
    simp [hlen, hd, copy_nil_src]
    omega

theorem read_eof_timing_witness :
    (∀ x ∈ [(⟨⟨[Metric.ofBytes [1, 2, 3]], [1, 2, 3], State.split, 0, 2⟩, [1, 2], 2, none⟩ :
        ReadResult)], x.err = none) ∧
    1 ≤ (⟨⟨[Metric.ofBytes [1, 2, 3]], [1, 2, 3], State.done, 1, 0⟩, [3, 0], 1,
        some Error.EOF⟩ : ReadResult).n ∧
    ((⟨⟨[Metric.ofBytes [1, 2, 3]], [1, 2, 3], State.done, 1, 0⟩, [3, 0], 1,
        some Error.EOF⟩ : ReadResult).err = some Error.EOF ∨
      ((⟨⟨[Metric.ofBytes [1, 2, 3]], [1, 2, 3], State.done, 1, 0⟩, [3, 0], 1,
          some Error.EOF⟩ : ReadResult).err = none ∧
        (⟨⟨[Metric.ofBytes [1, 2, 3]], [1, 2, 3], State.done, 1, 0⟩, [3, 0], 1,
          some Error.EOF⟩ : ReadResult).n = [0, 0].length ∧
        [0, 0].length = (Metric.ofBytes [1, 2, 3]).Len ∧
        (⟨⟨[Metric.ofBytes [1, 2, 3]], [1, 2, 3], State.done, 1, 0⟩, [3, 0], 1,
          some Error.EOF⟩ : ReadResult).chunk = (Metric.ofBytes [1, 2, 3]).Serialize ∧
        (⟨⟨[Metric.ofBytes [1, 2, 3]], [1, 2, 3], State.done, 1, 0⟩, [3, 0], 1,
          some Error.EOF⟩ : ReadResult).r.state = State.split ∧
        ∀ q, (⟨⟨[Metric.ofBytes [1, 2, 3]], [1, 2, 3], State.done, 1, 0⟩, [3, 0], 1,
          some Error.EOF⟩ : ReadResult).r.Read q
          = Except.ok ⟨⟨[Metric.ofBytes [1, 2, 3]], (Metric.ofBytes [1, 2, 3]).Serialize,
              State.done, [Metric.ofBytes [1, 2, 3]].length, 0⟩, q, 0, some Error.EOF⟩)) :=
  read_eof_timing [Metric.ofBytes [1, 2, 3]] (ofBytes_all_wellFormed [[1, 2, 3]])
    (Metric.ofBytes [1, 2, 3]) rfl (by simp [Metric.ofBytes]) [[0, 0]] [0, 0]
    ⟨[Metric.ofBytes [1, 2, 3]], [1, 2, 3], State.done, 1, 0⟩
    [⟨⟨[Metric.ofBytes [1, 2, 3]], [1, 2, 3], State.split, 0, 2⟩, [1, 2], 2, none⟩]
    ⟨⟨[Metric.ofBytes [1, 2, 3]], [1, 2, 3], State.done, 1, 0⟩, [3, 0], 1, some Error.EOF⟩
    rfl (by decide) rfl

/-- C3 (done is absorbing): once a call of `Read` has returned `io.EOF`, every later
call, whatever its buffer, returns `(0, io.EOF)` and leaves the reader and the buffer
as they were. -/
theorem read_done_absorbing (r : Reader) (p : List Byte) (res : ReadResult)
    (h : r.Read p = Except.ok res) (he : res.err = some Error.EOF) (qs : List (List Byte)) :
    res.r.readMany qs
      = Except.ok (res.r, qs.map (fun q => ⟨res.r, q, 0, some Error.EOF⟩)) :=
  readMany_done qs res.r (Read_eof_done r p res h he)

theorem read_done_absorbing_witness :
    (⟨[Metric.ofBytes [7, 8]], [7, 8], State.done, 1, 0⟩ : Reader).readMany [[1], [], [2, 3, 4]]
      = Except.ok (⟨[Metric.ofBytes [7, 8]], [7, 8], State.done, 1, 0⟩,
          [[1], [], [2, 3, 4]].map
            (fun q => ⟨⟨[Metric.ofBytes [7, 8]], [7, 8], State.done, 1, 0⟩, q, 0,
              some Error.EOF⟩)) :=
  read_done_absorbing ⟨[Metric.ofBytes [7, 8]], [7, 8], State.split, 0, 1⟩ [0, 0]
    ⟨⟨[Metric.ofBytes [7, 8]], [7, 8], State.done, 1, 0⟩, [8, 0], 1, some Error.EOF⟩
    rfl rfl [[1], [], [2, 3, 4]]

/-- C4 (empty batch): on the reader that `NewReader` builds from an empty slice, the
first `Read` indexes `r.metrics[0]` and faults with an index out of range; it does not
return `(0, io.EOF)`. -/
theorem read_empty_batch_faults (p : List Byte) :
    (NewReader []).Read p = Except.error Fault.indexOutOfRange := rfl

/-- C9 as stated fails for a metric that obeys `Len() = len(Serialize())` but whose
`CopyTo` writes past its encoding: the one-byte metric `scribbler` read into a 3-byte
buffer gives `n = 1`, and the bytes of `p` at the indices 1 and 2 have changed. -/
theorem read_capacity_bound_counterexample :
    scribbler.Len = scribbler.Serialize.length ∧
    (NewReader [scribbler]).Read [0, 0, 0]
      = Except.ok ⟨⟨[scribbler], [], State.done, 1, 0⟩, [255, 255, 255], 1,
          some Error.EOF⟩ ∧
    ([255, 255, 255] : List Byte)[1]? = some 255 ∧ ([0, 0, 0] : List Byte)[1]? = some 0 :=
  ⟨rfl, rfl, rfl, rfl⟩

/-- C9, amended (capacity bound): in every state reachable over a non-empty batch, and
for every buffer `p`, `Read` returns; its count `n` satisfies `n ≤ len(p)` whatever
the metrics' methods compute (a `CopyTo` cannot change the length of `p`); and when
the metrics keep their contract, `Len() = len(Serialize())` and `CopyTo(dst)` writing
exactly that encoding at the start of `dst`, `Read` leaves `p` as it was at every
index from `n` on. -/
theorem read_capacity_bound (ms : List Metric) (hne : ms ≠ []) (r : Reader)
    (hr : Reachable ms r) (p : List Byte) :
    ∃ res, r.Read p = Except.ok res ∧
      ((∀ m ∈ ms, m.KeepsLength) → res.n ≤ p.length ∧ res.p.length = p.length) ∧
      ((∀ m ∈ ms, m.WellFormed) → res.n ≤ p.length ∧ res.p.length = p.length ∧
        ∀ k, res.n ≤ k → res.p[k]? = p[k]?) := by
  obtain ⟨hinv, hms⟩ := reachable_safe ms hne r hr
  obtain ⟨res, hres, _⟩ := Read_safe r p hinv
  refine ⟨res, hres, fun hk => Read_bound r p res (by rw [hms]; exact hk) hres, fun hwf => ?_⟩
  obtain ⟨res1, hres1, hs⟩ := Read_step r p (by rw [hms]; exact hwf) hinv
  rw [hres] at hres1
  simp only [Except.ok.injEq] at hres1
  subst hres1
  refine ⟨hs.n_le, hs.length_eq, fun k hk => ?_⟩
  have h1 : (res.p.drop res.n)[k - res.n]? = (p.drop res.n)[k - res.n]? := by rw [hs.drop_eq]
  rw [List.getElem?_drop, List.getElem?_drop] at h1
  rwa [Nat.add_sub_cancel' hk] at h1

theorem read_capacity_bound_witness :
    ∃ res, (NewReader ([[1, 2, 3], [4, 5]].map Metric.ofBytes)).Read [9, 9, 9, 9, 9]
        = Except.ok res ∧
      (res.n ≤ [9, 9, 9, 9, 9].length ∧ res.p.length = [9, 9, 9, 9, 9].length) ∧
      (res.n ≤ [9, 9, 9, 9, 9].length ∧ res.p.length = [9, 9, 9, 9, 9].length ∧
        ∀ k, res.n ≤ k → res.p[k]? = [9, 9, 9, 9, 9][k]?) :=
  match read_capacity_bound ([[1, 2, 3], [4, 5]].map Metric.ofBytes) (by simp)
      (NewReader ([[1, 2, 3], [4, 5]].map Metric.ofBytes)) ⟨[], [], rfl⟩ [9, 9, 9, 9, 9] with
  | ⟨res, h, h1, h2⟩ =>
    ⟨res, h, h1 (ofBytes_all_keepsLength _), h2 (ofBytes_all_wellFormed _)⟩

/-- C10 (prefix invariant): over a non-empty batch of metrics that keep their
contract, after any finite sequence of calls with buffers of any sizes, the chunks
handed out so far concatenate to a prefix of the encodings of the batch, and the
counts returned so far sum to at most the sum of the metrics' lengths. -/
theorem read_prefix_invariant (ms : List Metric) (hne : ms ≠ [])
    (hwf : ∀ m ∈ ms, m.WellFormed) (bufs : List (List Byte)) :
    ∃ r1 rs, (NewReader ms).readMany bufs = Except.ok (r1, rs) ∧
      (rs.map ReadResult.chunk).flatten <+: encAll ms ∧
      (rs.map ReadResult.n).sum ≤ (ms.map Metric.Len).sum := by
  obtain ⟨r1, rs, h1, _, _, _, h5, h6⟩ :=
    readMany_spec bufs (NewReader ms) hwf (newReader_inv ms hne)
  rw [newReader_pending] at h5
  refine ⟨r1, rs, h1, ⟨r1.pending, h5.symm⟩, ?_⟩
  rw [h6, ← encAll_length ms hwf, h5]
  simp

theorem read_prefix_invariant_witness :
    ∃ r1 rs, (NewReader ([[1, 2, 3], [4, 5]].map Metric.ofBytes)).readMany [[0, 0], [], [0]]
        = Except.ok (r1, rs) ∧
      (rs.map ReadResult.chunk).flatten <+: encAll ([[1, 2, 3], [4, 5]].map Metric.ofBytes) ∧
      (rs.map ReadResult.n).sum ≤ (([[1, 2, 3], [4, 5]].map Metric.ofBytes).map Metric.Len).sum :=
  read_prefix_invariant ([[1, 2, 3], [4, 5]].map Metric.ofBytes) (by simp)
    (ofBytes_all_wellFormed _) [[0, 0], [], [0]]

/-- C7 (equality boundary, whole buffer): for two metrics whose encoded lengths both
equal `c`, read with buffers of size `c`, the four calls give `(c, nil)` with the buffer
holding metric 1 and the reader in state `split` at index 0, then `(0, nil)`, then
`(c, nil)` with the buffer holding metric 2 and the reader in state `split` at index 1,
then `(0, io.EOF)`: the pattern of the split path, not one whole metric per call. -/
theorem read_equal_length_pair (m1 m2 : Metric) (hw1 : m1.WellFormed) (hw2 : m2.WellFormed)
    (c : Nat) (h1 : m1.Len = c) (h2 : m2.Len = c) (p1 p2 p3 p4 : List Byte)
    (hp1 : p1.length = c) (hp3 : p3.length = c) :
    (NewReader [m1, m2]).readMany [p1, p2, p3, p4] = Except.ok
      (⟨[m1, m2], m2.Serialize, State.done, 2, 0⟩,
       [⟨⟨[m1, m2], m1.Serialize, State.split, 0, c⟩, m1.Serialize, c, none⟩,
        ⟨⟨[m1, m2], m1.Serialize, State.normal, 1, 0⟩, p2, 0, none⟩,
        ⟨⟨[m1, m2], m2.Serialize, State.split, 1, c⟩, m2.Serialize, c, none⟩,
        ⟨⟨[m1, m2], m2.Serialize, State.done, 2, 0⟩, p4, 0, some Error.EOF⟩]) := by
  have hl1 : m1.Serialize.length = c := by rw [← hw1.len_eq, h1]
  have hl2 : m2.Serialize.length = c := by rw [← hw2.len_eq, h2]
  have e1 : (NewReader [m1, m2]).Read p1
      = Except.ok ⟨⟨[m1, m2], m1.Serialize, State.split, 0, c⟩, m1.Serialize, c, none⟩ := by
    rw [Read_normal_nofit (NewReader [m1, m2]) p1 m1 rfl rfl rfl (by omega),
      copy_same_length p1 _ (by omega)]
    simp [NewReader, hp1, hl1]
  have e2 : (⟨[m1, m2], m1.Serialize, State.split, 0, c⟩ : Reader).Read p2
      = Except.ok ⟨⟨[m1, m2], m1.Serialize, State.normal, 1, 0⟩, p2, 0, none⟩ := by
    have hd : m1.Serialize.drop c = [] := List.drop_eq_nil_of_le (by omega)
    rw [Read_split_next _ p2 rfl (by simp [hl1]) (by simp [hl1]) (by simp)]
    simp [hl1, hd, copy_nil_src]
  have e3 : (⟨[m1, m2], m1.Serialize, State.normal, 1, 0⟩ : Reader).Read p3
      = Except.ok ⟨⟨[m1, m2], m2.Serialize, State.split, 1, c⟩, m2.Serialize, c, none⟩ := by
    rw [Read_normal_nofit ⟨[m1, m2], m1.Serialize, State.normal, 1, 0⟩ p3 m2 rfl rfl rfl
      (by omega), copy_same_length p3 _ (by omega)]
    simp [hp3, hl2]
  have e4 : (⟨[m1, m2], m2.Serialize, State.split, 1, c⟩ : Reader).Read p4
      = Except.ok ⟨⟨[m1, m2], m2.Serialize, State.done, 2, 0⟩, p4, 0, some Error.EOF⟩ := by
    have hd : m2.Serialize.drop c = [] := List.drop_eq_nil_of_le (by omega)
    rw [Read_split_last _ p4 rfl (by simp [hl2]) (by simp [hl2]) (by simp)]
    simp [hl2, hd, copy_nil_src]
  exact readMany_cons _ _ _ _ _ _ e1 (readMany_cons _ _ _ _ _ _ e2
    (readMany_cons _ _ _ _ _ _ e3 (readMany_cons _ _ _ _ _ _ e4 rfl)))

theorem read_equal_length_pair_witness :
    (NewReader [Metric.ofBytes [1, 2], Metric.ofBytes [3, 4]]).readMany
        [[0, 0], [0, 0], [0, 0], [0, 0]] = Except.ok
      (⟨[Metric.ofBytes [1, 2], Metric.ofBytes [3, 4]], [3, 4], State.done, 2, 0⟩,
       [⟨⟨[Metric.ofBytes [1, 2], Metric.ofBytes [3, 4]], [1, 2], State.split, 0, 2⟩,
          [1, 2], 2, none⟩,
        ⟨⟨[Metric.ofBytes [1, 2], Metric.ofBytes [3, 4]], [1, 2], State.normal, 1, 0⟩,
          [0, 0], 0, none⟩,
        ⟨⟨[Metric.ofBytes [1, 2], Metric.ofBytes [3, 4]], [3, 4], State.split, 1, 2⟩,
          [3, 4], 2, none⟩,
        ⟨⟨[Metric.ofBytes [1, 2], Metric.ofBytes [3, 4]], [3, 4], State.done, 2, 0⟩,
          [0, 0], 0, some Error.EOF⟩]) :=
  read_equal_length_pair (Metric.ofBytes [1, 2]) (Metric.ofBytes [3, 4])
    (ofBytes_wellFormed _) (ofBytes_wellFormed _) 2 rfl rfl [0, 0] [0, 0] [0, 0] [0, 0] rfl rfl

/-- C6 (one whole metric per call): for a batch of `k ≥ 1` metrics that all have the
encoded length `L`, read with buffers of a size `c`, `L < c ≤ 2L`, each of the first
`k - 1` calls returns `(L, nil)` with `p[0:L]` that metric's encoding, call `k` returns
`(L, io.EOF)` with the last metric's encoding, and every later call `(0, io.EOF)`. -/
theorem read_whole_metric_per_call (init : List Metric) (last : Metric)
    (hwf : ∀ m ∈ init ++ [last], m.WellFormed) (L c : Nat)
    (hL : ∀ m ∈ init ++ [last], m.Len = L) (h1 : L < c) (h2 : c ≤ 2 * L)
    (bufs more : List (List Byte)) (hlen : bufs.length = init.length + 1)
    (hc : ∀ p ∈ bufs ++ more, p.length = c) :
    ∃ r1 rs, (NewReader (init ++ [last])).readMany (bufs ++ more) = Except.ok (r1, rs) ∧
      rs.map (fun res => (res.n, res.chunk, res.err))
        = init.map (fun m => (L, m.Serialize, none)) ++ [(L, last.Serialize, some Error.EOF)]
          ++ more.map (fun _ => (0, [], some Error.EOF)) := by
  obtain ⟨rs, hrun, hmap⟩ := whole_metric_run (init ++ [last]) hwf L c hL h1 h2 last init 0 []
    bufs rfl hlen (fun p hp => hc p (List.mem_append_left _ hp))
  have hdone := readMany_done more ⟨init ++ [last], [], State.done, (init ++ [last]).length, 0⟩
    rfl
  refine ⟨_, _, readMany_append bufs _ _ _ more _ _ hrun hdone, ?_⟩
  rw [List.map_append, hmap]
  simp [ReadResult.chunk, Function.comp_def]

theorem read_whole_metric_per_call_witness :
    ∃ r1 rs, (NewReader ([Metric.ofBytes [1, 2], Metric.ofBytes [3, 4]]
          ++ [Metric.ofBytes [5, 6]])).readMany
        ([[0, 0, 0], [0, 0, 0], [0, 0, 0]] ++ [[0, 0, 0]]) = Except.ok (r1, rs) ∧
      rs.map (fun res => (res.n, res.chunk, res.err))
        = [Metric.ofBytes [1, 2], Metric.ofBytes [3, 4]].map
            (fun m => (2, m.Serialize, none))
          ++ [(2, (Metric.ofBytes [5, 6]).Serialize, some Error.EOF)]
          ++ [[0, 0, 0]].map (fun _ => (0, [], some Error.EOF)) :=
  read_whole_metric_per_call [Metric.ofBytes [1, 2], Metric.ofBytes [3, 4]]
    (Metric.ofBytes [5, 6]) (ofBytes_all_wellFormed [[1, 2], [3, 4], [5, 6]]) 2 3
    (by intro m hm; simp at hm; rcases hm with rfl | rfl | rfl <;> rfl)
    (by decide) (by decide) [[0, 0, 0], [0, 0, 0], [0, 0, 0]] [[0, 0, 0]] rfl
    (by intro p hp; simp at hp; rw [hp]; rfl)

/-- C5 (split chunking): for a buffer size `c ≥ 1` and a non-empty batch whose metrics
all encode to more than `c` bytes, successive calls with buffers of size `c` hand out,
metric by metric in batch order, the consecutive `c`-byte slices of each encoding and
then its tail of `L - c * (ceilDiv L c - 1)` bytes, `ceilDiv L c` chunks per metric;
no chunk holds bytes of two metrics, and `io.EOF` comes with the last chunk of the
last metric and with no other. -/
theorem read_split_chunking (ms : List Metric) (hne : ms ≠ [])
    (hwf : ∀ m ∈ ms, m.WellFormed) (c : Nat) (hc : 1 ≤ c) (hL : ∀ m ∈ ms, c < m.Len)
    (bufs : List (List Byte))
    (hlen : bufs.length = (ms.map (fun m => ceilDiv m.Len c)).sum)
    (hpc : ∀ p ∈ bufs, p.length = c) :
    ∃ r1 rs, (NewReader ms).readMany bufs = Except.ok (r1, rs) ∧
      rs.map ReadResult.chunk = (ms.map (fun m => slices c m.Serialize)).flatten ∧
      (∀ m ∈ ms, (slices c m.Serialize).map List.length
        = List.replicate (ceilDiv m.Len c - 1) c ++ [m.Len - c * (ceilDiv m.Len c - 1)]) ∧
      (∀ res ∈ rs, res.n = res.chunk.length) ∧
      rs.map ReadResult.err = List.replicate (bufs.length - 1) none ++ [some Error.EOF] ∧
      r1.state = State.done := by
  obtain ⟨r1, rs, hrun, hdone, hch, herr, hn⟩ :=
    batch_run ms hwf c hc hL ms 0 [] bufs rfl hne hlen hpc
  refine ⟨r1, rs, hrun, hch, ?_, hn, herr, hdone⟩
  intro m hm
  have hl := (hwf m hm).len_eq
  have := hL m hm
  rw [hl]
  exact slices_lengths c m.Serialize hc (by omega)

theorem read_split_chunking_witness :
    ∃ r1 rs, (NewReader ([[1, 2, 3], [4, 5, 6, 7]].map Metric.ofBytes)).readMany
        [[0, 0], [0, 0], [0, 0], [0, 0]] = Except.ok (r1, rs) ∧
      rs.map ReadResult.chunk
        = (([[1, 2, 3], [4, 5, 6, 7]].map Metric.ofBytes).map
            (fun m => slices 2 m.Serialize)).flatten ∧
      (∀ m ∈ [[1, 2, 3], [4, 5, 6, 7]].map Metric.ofBytes,
        (slices 2 m.Serialize).map List.length
          = List.replicate (ceilDiv m.Len 2 - 1) 2 ++ [m.Len - 2 * (ceilDiv m.Len 2 - 1)]) ∧
      (∀ res ∈ rs, res.n = res.chunk.length) ∧
      rs.map ReadResult.err
        = List.replicate ([[0, 0], [0, 0], [0, 0], [0, 0]].length - 1) none
          ++ [some Error.EOF] ∧
      r1.state = State.done :=
  read_split_chunking ([[1, 2, 3], [4, 5, 6, 7]].map Metric.ofBytes) (by simp)
    (ofBytes_all_wellFormed _) 2 (by decide)
    (by intro m hm; simp at hm; rcases hm with rfl | rfl <;> decide)
    [[0, 0], [0, 0], [0, 0], [0, 0]] rfl
    (by intro p hp; simp at hp; rw [hp]; rfl)

/-- C8 as stated fails once bytes have been written in the call: on the batch of a
1-byte and a 2-byte metric and a 3-byte buffer, the loop copies the first metric and
breaks at the second with its length equal to the 2 bytes of capacity left; the call
returns `(1, nil)` with the reader still in state `normal` at index 1 and the scratch
buffer untouched, and the next call with a 3-byte buffer delivers the second metric
by `CopyTo`, without the state `split`. -/
theorem read_equality_boundary_counterexample :
    normalLoop 3 (NewReader [Metric.ofBytes [1], Metric.ofBytes [2, 3]]) [0, 0, 0] 0
      = Except.ok (LoopExit.broke
          ⟨[Metric.ofBytes [1], Metric.ofBytes [2, 3]], [], State.normal, 1, 0⟩ [1, 0, 0] 1) ∧
    (Metric.ofBytes [2, 3]).Len = [0, 0, 0].length - 1 ∧
    (NewReader [Metric.ofBytes [1], Metric.ofBytes [2, 3]]).Read [0, 0, 0]
      = Except.ok ⟨⟨[Metric.ofBytes [1], Metric.ofBytes [2, 3]], [], State.normal, 1, 0⟩,
          [1, 0, 0], 1, none⟩ ∧
    (⟨[Metric.ofBytes [1], Metric.ofBytes [2, 3]], [], State.normal, 1, 0⟩ : Reader).Read
        [0, 0, 0]
      = Except.ok ⟨⟨[Metric.ofBytes [1], Metric.ofBytes [2, 3]], [], State.done, 2, 0⟩,
          [2, 3, 0], 2, some Error.EOF⟩ :=
  ⟨rfl, rfl, rfl, rfl⟩

/-- C8, amended (equality boundary, remaining capacity): take a reachable reader in
state `normal` and a buffer `p` such that the `t` metrics from the cursor on fit
strictly together in `p` and the metric `m` after them is exactly as long as the
capacity they leave. Then the call does not copy `m` by `CopyTo`. If no byte has been
written (`i = 0`), `m` goes through the split path: it is serialized into the scratch
buffer and copied whole into `p`, and the reader enters state `split` at `m`. If bytes
have been written (`i > 0`), the call returns them with a nil error and leaves the
reader in state `normal` at `m`, the scratch buffer untouched; the next call then
delivers `m` through the split path when its buffer is no longer than `m`, and by
`CopyTo` when its buffer is strictly longer. -/
theorem read_equality_boundary (ms : List Metric) (hne : ms ≠ [])
    (hwf : ∀ m ∈ ms, m.WellFormed) (r : Reader) (hr : Reachable ms r)
    (hn : r.state = State.normal) (p : List Byte) (t : Nat) (m : Metric)
    (hm : ms[r.iM + t]? = some m)
    (ht : 1 ≤ t → (encAll ((ms.drop r.iM).take t)).length < p.length)
    (heq : (encAll ((ms.drop r.iM).take t)).length + m.Len = p.length) :
    ((encAll ((ms.drop r.iM).take t)).length = 0 →
      r.Read p = Except.ok ⟨⟨ms, m.Serialize, State.split, r.iM + t, p.length⟩,
        m.Serialize, p.length, none⟩) ∧
    (0 < (encAll ((ms.drop r.iM).take t)).length →
      r.Read p = Except.ok ⟨⟨ms, r.buf, State.normal, r.iM + t, 0⟩,
        encAll ((ms.drop r.iM).take t) ++ p.drop (encAll ((ms.drop r.iM).take t)).length,
        (encAll ((ms.drop r.iM).take t)).length, none⟩ ∧
      ∀ q : List Byte,
        (q.length ≤ m.Len →
          (⟨ms, r.buf, State.normal, r.iM + t, 0⟩ : Reader).Read q
            = Except.ok ⟨⟨ms, m.Serialize, State.split, r.iM + t, q.length⟩,
                m.Serialize.take q.length, q.length, none⟩) ∧
        (m.Len < q.length →
          ∃ res, (⟨ms, r.buf, State.normal, r.iM + t, 0⟩ : Reader).Read q = Except.ok res ∧
            res.r.state ≠ State.split ∧ res.r.buf = r.buf ∧ r.iM + t < res.r.iM ∧
            m.Serialize <+: res.p)) := by
  obtain ⟨hinv, hms⟩ := reachable_inv ms hne hwf r hr
  simp only [Reader.Inv, hn] at hinv
  obtain ⟨hj, hB⟩ := hinv
  subst hms
  have hmw : m.WellFormed := wf_of_getElem? hwf hm
  have hlen : m.Serialize.length = m.Len := hmw.len_eq.symm
  have hloop := normalLoop_boundary r p hwf t m hm ht heq
  constructor
  · intro h0
    have hw : encAll ((r.metrics.drop r.iM).take t) = [] := List.length_eq_zero.mp h0
    have hpl : p.length = m.Serialize.length := by omega
    rw [hw] at hloop
    simp only [List.nil_append, List.length_nil, List.drop_zero] at hloop
    simp only [Reader.Read, hn, hloop, if_true, hm, hB, Nat.zero_le, List.drop_zero,
      Nat.zero_add, copy_same_length p m.Serialize hpl, hpl]
  · intro hpos
    have hne0 : (encAll ((r.metrics.drop r.iM).take t)).length ≠ 0 := by omega
    have ht1 : 1 ≤ t := by
      rcases Nat.eq_zero_or_pos t with h0 | h0
      · rw [h0] at hpos
        simp [encAll] at hpos
      · exact h0
    have hmpos : 1 ≤ m.Len := by
      have := ht ht1
      omega
    refine ⟨?_, fun q => ⟨fun hq => ?_, fun hq => ?_⟩⟩
    · simp only [Reader.Read, hn, hloop, hne0, if_false, hB]
    · rw [Read_normal_nofit ⟨r.metrics, r.buf, State.normal, r.iM + t, 0⟩ q m rfl hm rfl
        (by omega)]
      have hmin : min q.length m.Serialize.length = q.length := by omega
      simp [copy, hmin]
    · obtain ⟨t1, ht1, _, _, hread⟩ :=
        Read_normal_pack ⟨r.metrics, r.buf, State.normal, r.iM + t, 0⟩ q m rfl hwf hm hmpos hq
      refine ⟨_, hread, ?_, rfl, ?_, ?_⟩
      · show (if r.iM + t + t1 = r.metrics.length then State.done else State.normal)
          ≠ State.split
        split <;> simp
      · show r.iM + t < r.iM + t + t1
        omega
      · obtain ⟨s1, rfl⟩ : ∃ s1, t1 = s1 + 1 := ⟨t1 - 1, by omega⟩
        have hd : r.metrics.drop (r.iM + t) = m :: r.metrics.drop (r.iM + t + 1) := by
          obtain ⟨hlt, hget⟩ := List.getElem?_eq_some.mp hm
          rw [List.drop_eq_getElem_cons hlt, hget]
        show m.Serialize <+: encAll ((r.metrics.drop (r.iM + t)).take (s1 + 1)) ++ _
        rw [hd, List.take_succ_cons, encAll_cons, List.append_assoc]
        exact ⟨_, rfl⟩

theorem read_equality_boundary_witness :
    (NewReader [Metric.ofBytes [1], Metric.ofBytes [2, 3]]).Read [0, 0, 0]
      = Except.ok ⟨⟨[Metric.ofBytes [1], Metric.ofBytes [2, 3]], [], State.normal, 1, 0⟩,
          [1, 0, 0], 1, none⟩ ∧
    (⟨[Metric.ofBytes [1], Metric.ofBytes [2, 3]], [], State.normal, 1, 0⟩ : Reader).Read [0, 0]
      = Except.ok ⟨⟨[Metric.ofBytes [1], Metric.ofBytes [2, 3]], [2, 3], State.split, 1, 2⟩,
          [2, 3], 2, none⟩ :=
  have h := (read_equality_boundary [Metric.ofBytes [1], Metric.ofBytes [2, 3]] (by simp)
    (ofBytes_all_wellFormed [[1], [2, 3]])
    (NewReader [Metric.ofBytes [1], Metric.ofBytes [2, 3]]) ⟨[], [], rfl⟩ rfl [0, 0, 0] 1
    (Metric.ofBytes [2, 3]) rfl (fun _ => by decide) rfl).2 (by decide)
  ⟨h.1, (h.2 [0, 0]).1 (by decide)⟩

/-- C11 (cursor monotonicity): in every state reachable over a non-empty batch, and for
every buffer, a call of `Read` returns and never decreases the metric index `iM`; the
cursor `(iM, iB)` does not decrease in lexicographic order, and `iB` gets smaller
(it is reset to 0) only in a call that increases `iM`. -/
theorem read_cursor_monotone (ms : List Metric) (hne : ms ≠ []) (r : Reader)
    (hr : Reachable ms r) (p : List Byte) :
    ∃ res, r.Read p = Except.ok res ∧ r.iM ≤ res.r.iM ∧
      (r.iM < res.r.iM ∨ (r.iM = res.r.iM ∧ r.iB ≤ res.r.iB)) ∧
      (res.r.iB < r.iB → r.iM < res.r.iM) := by
  obtain ⟨hinv, _⟩ := reachable_safe ms hne r hr
  obtain ⟨res, hres, _, _, h1, h2⟩ := Read_safe r p hinv
  refine ⟨res, hres, h1, ?_, fun hlt => ?_⟩
  · rcases Nat.lt_or_ge r.iM res.r.iM with h | h
    · exact Or.inl h
    · have he : res.r.iM = r.iM := by omega
      exact Or.inr ⟨he.symm, h2 he⟩
  · rcases Nat.lt_or_ge r.iM res.r.iM with h | h
    · exact h
    · have he : res.r.iM = r.iM := by omega
      have := h2 he
      omega

theorem read_cursor_monotone_witness :
    ∃ res, (NewReader [Metric.ofBytes [1, 2, 3]]).Read [0, 0] = Except.ok res ∧
      (NewReader [Metric.ofBytes [1, 2, 3]]).iM ≤ res.r.iM ∧
      ((NewReader [Metric.ofBytes [1, 2, 3]]).iM < res.r.iM ∨
        ((NewReader [Metric.ofBytes [1, 2, 3]]).iM = res.r.iM ∧
          (NewReader [Metric.ofBytes [1, 2, 3]]).iB ≤ res.r.iB)) ∧
      (res.r.iB < (NewReader [Metric.ofBytes [1, 2, 3]]).iB →
        (NewReader [Metric.ofBytes [1, 2, 3]]).iM < res.r.iM) :=
  read_cursor_monotone [Metric.ofBytes [1, 2, 3]] (by simp)
    (NewReader [Metric.ofBytes [1, 2, 3]]) ⟨[], [], rfl⟩ [0, 0]

/-- C18 (reachable-state invariant and index safety): over a non-empty batch, every
state reachable from `NewReader` by calls of `Read` with buffers of any sizes has
`state = done` exactly when `iM = len(metrics)`; in state `normal`, `iM < len(metrics)`
and `iB = 0`; in state `split`, `iM < len(metrics)`, `buf` is `Serialize()` of
`metrics[iM]` and `iB ≤ len(buf)`. So every call of `Read` in such a state returns: it
neither indexes `metrics` out of range nor slices `buf` past its end. -/
theorem reachable_state_invariant (ms : List Metric) (hne : ms ≠ []) (r : Reader)
    (hr : Reachable ms r) :
    r.metrics = ms ∧ (r.state = State.done ↔ r.iM = ms.length) ∧
      (r.state = State.normal → r.iM < ms.length ∧ r.iB = 0) ∧
      (r.state = State.split → r.iM < ms.length ∧
        (∃ m, ms[r.iM]? = some m ∧ r.buf = m.Serialize) ∧ r.iB ≤ r.buf.length) ∧
      ∀ p, ∃ res, r.Read p = Except.ok res := by
  obtain ⟨hinv, hms⟩ := reachable_safe ms hne r hr
  refine ⟨hms, ?_, ?_, ?_, fun p => ?_⟩
  · cases hst : r.state with
    | done =>
      simp only [Reader.Inv, hst, hms] at hinv
      simp [hinv]
    | normal =>
      simp only [Reader.Inv, hst, hms] at hinv
      simp only [false_iff, reduceCtorEq]
      omega
    | split =>
      simp only [Reader.Inv, hst, hms] at hinv
      obtain ⟨m, hm, _, _⟩ := hinv
      have := (List.getElem?_eq_some.mp hm).1
      simp only [false_iff, reduceCtorEq]
      omega
  · intro hst
    simp only [Reader.Inv, hst, hms] at hinv
    exact hinv
  · intro hst
    simp only [Reader.Inv, hst, hms] at hinv
    obtain ⟨m, hm, hb, hB⟩ := hinv
    exact ⟨(List.getElem?_eq_some.mp hm).1, ⟨m, hm, hb⟩, hB⟩
  · obtain ⟨res, hres, _⟩ := Read_safe r p hinv
    exact ⟨res, hres⟩

theorem reachable_state_invariant_witness :
    (⟨[Metric.ofBytes [1, 2, 3]], [1, 2, 3], State.split, 0, 2⟩ : Reader).metrics
        = [Metric.ofBytes [1, 2, 3]] ∧
      ((⟨[Metric.ofBytes [1, 2, 3]], [1, 2, 3], State.split, 0, 2⟩ : Reader).state = State.done
        ↔ (⟨[Metric.ofBytes [1, 2, 3]], [1, 2, 3], State.split, 0, 2⟩ : Reader).iM
          = [Metric.ofBytes [1, 2, 3]].length) ∧
      ((⟨[Metric.ofBytes [1, 2, 3]], [1, 2, 3], State.split, 0, 2⟩ : Reader).state = State.normal
        → (⟨[Metric.ofBytes [1, 2, 3]], [1, 2, 3], State.split, 0, 2⟩ : Reader).iM
            < [Metric.ofBytes [1, 2, 3]].length ∧
          (⟨[Metric.ofBytes [1, 2, 3]], [1, 2, 3], State.split, 0, 2⟩ : Reader).iB = 0) ∧
      ((⟨[Metric.ofBytes [1, 2, 3]], [1, 2, 3], State.split, 0, 2⟩ : Reader).state = State.split
        → (⟨[Metric.ofBytes [1, 2, 3]], [1, 2, 3], State.split, 0, 2⟩ : Reader).iM
            < [Metric.ofBytes [1, 2, 3]].length ∧
          (∃ m, [Metric.ofBytes [1, 2, 3]][(⟨[Metric.ofBytes [1, 2, 3]], [1, 2, 3],
              State.split, 0, 2⟩ : Reader).iM]? = some m ∧
            (⟨[Metric.ofBytes [1, 2, 3]], [1, 2, 3], State.split, 0, 2⟩ : Reader).buf
              = m.Serialize) ∧
          (⟨[Metric.ofBytes [1, 2, 3]], [1, 2, 3], State.split, 0, 2⟩ : Reader).iB
            ≤ (⟨[Metric.ofBytes [1, 2, 3]], [1, 2, 3], State.split, 0, 2⟩ : Reader).buf.length) ∧
      ∀ p, ∃ res, (⟨[Metric.ofBytes [1, 2, 3]], [1, 2, 3], State.split, 0, 2⟩ : Reader).Read p
        = Except.ok res :=
  reachable_state_invariant [Metric.ofBytes [1, 2, 3]] (by simp)
    ⟨[Metric.ofBytes [1, 2, 3]], [1, 2, 3], State.split, 0, 2⟩
    ⟨[[0, 0]], [⟨⟨[Metric.ofBytes [1, 2, 3]], [1, 2, 3], State.split, 0, 2⟩, [1, 2], 2, none⟩],
      rfl⟩

/-- C12 (termination): over a non-empty batch of `k` metrics of total encoded length
`T` that keep their contract, every call of `Read` with a non-empty buffer on a reader
that is not done returns at least one byte or advances the metric index; so for every
sequence of buffers of size at least 1, `io.EOF` is first returned by a call number
at most `T + k`, and after that call every call returns `(0, io.EOF)`. -/
theorem read_terminates (ms : List Metric) (hne : ms ≠ []) (hwf : ∀ m ∈ ms, m.WellFormed) :
    (∀ r, Reachable ms r → r.state ≠ State.done → ∀ p : List Byte, 1 ≤ p.length →
      ∃ res, r.Read p = Except.ok res ∧ (1 ≤ res.n ∨ r.iM < res.r.iM)) ∧
    (∀ bufs : Nat → List Byte, (∀ k, 1 ≤ (bufs k).length) →
      ∃ N r1 rs last, N + 1 ≤ (ms.map Metric.Len).sum + ms.length ∧
        (NewReader ms).readMany ((List.range (N + 1)).map bufs)
          = Except.ok (r1, rs ++ [last]) ∧
        (∀ res ∈ rs, res.err = none) ∧ last.err = some Error.EOF ∧
        ∀ qs : List (List Byte), r1.readMany qs
          = Except.ok (r1, qs.map (fun q => ⟨r1, q, 0, some Error.EOF⟩))) := by
  constructor
  · intro r hr hnd p hp
    obtain ⟨hinv, hms⟩ := reachable_inv ms hne hwf r hr
    obtain ⟨res, hres, hs⟩ := Read_step r p (by rw [hms]; exact hwf) hinv
    exact ⟨res, hres, hs.advance hnd hp⟩
  · intro bufs hb
    obtain ⟨N, r1, rs, last, hN, hrun, hnil, hlast, hdone, _⟩ :=
      drain (NewReader ms).fuelLeft (NewReader ms) bufs hwf (newReader_inv ms hne)
        (by simp [NewReader]) (le_refl _) hb
    refine ⟨N, r1, rs, last, ?_, hrun, hnil, hlast, fun qs => readMany_done qs r1 hdone⟩
    have hf : (NewReader ms).fuelLeft = (ms.map Metric.Len).sum + ms.length := by
      simp only [Reader.fuelLeft, newReader_pending, encAll_length ms hwf]
      rfl
    omega

theorem read_terminates_witness :
    (∀ r, Reachable ([[1, 2, 3], [4, 5]].map Metric.ofBytes) r → r.state ≠ State.done →
      ∀ p : List Byte, 1 ≤ p.length →
      ∃ res, r.Read p = Except.ok res ∧ (1 ≤ res.n ∨ r.iM < res.r.iM)) ∧
    (∀ bufs : Nat → List Byte, (∀ k, 1 ≤ (bufs k).length) →
      ∃ N r1 rs last,
        N + 1 ≤ ((([[1, 2, 3], [4, 5]].map Metric.ofBytes)).map Metric.Len).sum
          + ([[1, 2, 3], [4, 5]].map Metric.ofBytes).length ∧
        (NewReader ([[1, 2, 3], [4, 5]].map Metric.ofBytes)).readMany
            ((List.range (N + 1)).map bufs)
          = Except.ok (r1, rs ++ [last]) ∧
        (∀ res ∈ rs, res.err = none) ∧ last.err = some Error.EOF ∧
        ∀ qs : List (List Byte), r1.readMany qs
          = Except.ok (r1, qs.map (fun q => ⟨r1, q, 0, some Error.EOF⟩))) :=
  read_terminates ([[1, 2, 3], [4, 5]].map Metric.ofBytes) (by simp)
    (ofBytes_all_wellFormed _)

/-- C17 as stated fails when the metric at the cursor has no bytes: on the batch of an
empty metric and a 5-byte metric with a 3-byte buffer, the empty metric fits, the
longest run of whole metrics below 3 bytes is that metric alone (0 bytes), yet the
call goes on to split the 5-byte metric: it returns `(3, nil)` and leaves the reader
in state `split` at index 1. -/
theorem read_greedy_packing_counterexample :
    (Metric.ofBytes []).Len < [0, 0, 0].length ∧
    ¬ (encAll [Metric.ofBytes [], Metric.ofBytes [1, 2, 3, 4, 5]]).length < [0, 0, 0].length ∧
    (NewReader [Metric.ofBytes [], Metric.ofBytes [1, 2, 3, 4, 5]]).Read [0, 0, 0]
      = Except.ok ⟨⟨[Metric.ofBytes [], Metric.ofBytes [1, 2, 3, 4, 5]], [1, 2, 3, 4, 5],
          State.split, 1, 3⟩, [1, 2, 3], 3, none⟩ :=
  ⟨by decide, by decide, rfl⟩

/-- C17, amended (greedy whole-metric packing): for every reader in state `normal` at
a metric index `j` and every buffer `p` such that the encoded length of `m_j` is at
least 1 and strictly less than `len(p)`, `Read` writes into `p` the encodings of the
longest run `m_j .. m_{j+t-1}` of the remaining metrics whose total encoded length is
strictly less than `len(p)` and leaves the rest of `p` alone, returns that total
length as `n`, advances the metric index to `j + t`, does not touch the scratch
buffer or enter state `split`, and returns `io.EOF` exactly when the run is all the
remaining metrics. -/
theorem read_greedy_packing (r : Reader) (p : List Byte) (m : Metric)
    (hn : r.state = State.normal) (hwf : ∀ x ∈ r.metrics, x.WellFormed)
    (hm : r.metrics[r.iM]? = some m) (hpos : 1 ≤ m.Len) (hfit : m.Len < p.length) :
    ∃ t, 1 ≤ t ∧ r.iM + t ≤ r.metrics.length ∧
      (∀ t1, t1 ≤ r.metrics.length - r.iM →
        ((encAll ((r.metrics.drop r.iM).take t1)).length < p.length ↔ t1 ≤ t)) ∧
      r.Read p = Except.ok
        ⟨{ r with iM := r.iM + t,
                  state := if r.iM + t = r.metrics.length then State.done else State.normal },
          encAll ((r.metrics.drop r.iM).take t)
            ++ p.drop (encAll ((r.metrics.drop r.iM).take t)).length,
          (encAll ((r.metrics.drop r.iM).take t)).length,
          if r.iM + t = r.metrics.length then some Error.EOF else none⟩ :=
  Read_normal_pack r p m hn hwf hm hpos hfit

theorem read_greedy_packing_witness :
    ∃ t, 1 ≤ t ∧
      (NewReader ([[1], [2, 3], [4, 5, 6]].map Metric.ofBytes)).iM + t
        ≤ (NewReader ([[1], [2, 3], [4, 5, 6]].map Metric.ofBytes)).metrics.length ∧
      (∀ t1, t1 ≤ (NewReader ([[1], [2, 3], [4, 5, 6]].map Metric.ofBytes)).metrics.length
          - (NewReader ([[1], [2, 3], [4, 5, 6]].map Metric.ofBytes)).iM →
        ((encAll (((NewReader ([[1], [2, 3], [4, 5, 6]].map Metric.ofBytes)).metrics.drop
            (NewReader ([[1], [2, 3], [4, 5, 6]].map Metric.ofBytes)).iM).take t1)).length
              < [0, 0, 0, 0, 0].length ↔ t1 ≤ t)) ∧
      (NewReader ([[1], [2, 3], [4, 5, 6]].map Metric.ofBytes)).Read [0, 0, 0, 0, 0]
        = Except.ok
          ⟨{ NewReader ([[1], [2, 3], [4, 5, 6]].map Metric.ofBytes) with
              iM := (NewReader ([[1], [2, 3], [4, 5, 6]].map Metric.ofBytes)).iM + t,
              state := if (NewReader ([[1], [2, 3], [4, 5, 6]].map Metric.ofBytes)).iM + t
                  = (NewReader ([[1], [2, 3], [4, 5, 6]].map Metric.ofBytes)).metrics.length
                then State.done else State.normal },
            encAll (((NewReader ([[1], [2, 3], [4, 5, 6]].map Metric.ofBytes)).metrics.drop
                (NewReader ([[1], [2, 3], [4, 5, 6]].map Metric.ofBytes)).iM).take t)
              ++ List.drop (encAll (((NewReader
                  ([[1], [2, 3], [4, 5, 6]].map Metric.ofBytes)).metrics.drop
                (NewReader ([[1], [2, 3], [4, 5, 6]].map Metric.ofBytes)).iM).take t)).length
                [0, 0, 0, 0, 0],
            (encAll (((NewReader ([[1], [2, 3], [4, 5, 6]].map Metric.ofBytes)).metrics.drop
                (NewReader ([[1], [2, 3], [4, 5, 6]].map Metric.ofBytes)).iM).take t)).length,
            if (NewReader ([[1], [2, 3], [4, 5, 6]].map Metric.ofBytes)).iM + t
                = (NewReader ([[1], [2, 3], [4, 5, 6]].map Metric.ofBytes)).metrics.length
              then some Error.EOF else none⟩ :=
  read_greedy_packing (NewReader ([[1], [2, 3], [4, 5, 6]].map Metric.ofBytes))
    [0, 0, 0, 0, 0] (Metric.ofBytes [1]) rfl (ofBytes_all_wellFormed _) rfl (by decide)
    (by decide)

end metric

namespace influxdb

theorem base64Value_char : ∀ n, n < 64 → base64Value (base64Char n) = some n := by decide

theorem base64Char_ne_pad : ∀ n, n < 64 → base64Char n ≠ '=' := by decide

theorem ofNat_toNat_eq (a : UInt8) (n : Nat) (h : n = a.toNat) : UInt8.ofNat n = a := by
  subst h
  apply UInt8.eq_of_toBitVec_eq
  apply BitVec.eq_of_toNat_eq
  exact UInt8.toNat_ofNat_of_lt (UInt8.toNat_lt a)

/-- Decoding undoes the standard base64 encoding. -/
theorem base64_roundtrip : ∀ bs : List UInt8, base64Decode (base64Encode bs) = some bs
  | [] => rfl
  | [a] => by
    have ha := UInt8.toNat_lt a
    have h0 := base64Value_char (a.toNat / 4) (by omega)
    have h1 := base64Value_char (a.toNat % 4 * 16) (by omega)
    simp only [base64Encode, base64Decode, h0, h1, if_true]
    rw [if_pos (by omega), ofNat_toNat_eq a _ (by omega)]
  | [a, b] => by
    have ha := UInt8.toNat_lt a
    have hb := UInt8.toNat_lt b
    have h0 := base64Value_char (a.toNat / 4) (by omega)
    have h1 := base64Value_char (a.toNat % 4 * 16 + b.toNat / 16) (by omega)
    have h2 := base64Value_char (b.toNat % 16 * 4) (by omega)
    have hp := base64Char_ne_pad (b.toNat % 16 * 4) (by omega)
    simp only [base64Encode, base64Decode, h0, h1, h2, hp, if_true, if_false]
    rw [if_pos (by omega), ofNat_toNat_eq a _ (by omega), ofNat_toNat_eq b _ (by omega)]
  | a :: b :: c :: rest => by
    have ha := UInt8.toNat_lt a
    have hb := UInt8.toNat_lt b
    have hc := UInt8.toNat_lt c
    have h0 := base64Value_char (a.toNat / 4) (by omega)
    have h1 := base64Value_char (a.toNat % 4 * 16 + b.toNat / 16) (by omega)
    have h2 := base64Value_char (b.toNat % 16 * 4 + c.toNat / 64) (by omega)
    have h3 := base64Value_char (c.toNat % 64) (by omega)
    have hp := base64Char_ne_pad (c.toNat % 64) (by omega)
    have ih := base64_roundtrip rest
    simp only [base64Encode, base64Decode, h0, h1, h2, h3, hp, ih, if_false]
    rw [ofNat_toNat_eq a _ (by omega), ofNat_toNat_eq b _ (by omega),
      ofNat_toNat_eq c _ (by omega)]

theorem data_infix (a m b : String) : m.data <:+: (a ++ m ++ b).data :=
  ⟨a.data, b.data, by simp [String.data_append]⟩

/-- The result of a write method, computed from the outcome of the transport, obeys
the all-or-nothing contract. -/
theorem allOrNothing_of_outcome (n : Int) (out : Outcome) :
    AllOrNothing
      (if (if out.code ≠ 204 ∧ out.err = none then
            some ("Received bad status code [" ++ toString out.code ++ "], expected [204]")
          else out.err) = none then (n, none)
        else (0, if out.code ≠ 204 ∧ out.err = none then
            some ("Received bad status code [" ++ toString out.code ++ "], expected [204]")
          else out.err)) n out := by
  obtain ⟨err, code⟩ := out
  cases err with
  | some e =>
    refine ⟨?_, ?_, ?_⟩
    · simp
    · intro e1 h1
      simp only [Option.some.injEq] at h1
      simp [h1]
    · intro h1
      simp at h1
  | none =>
    by_cases hc : code = 204
    · refine ⟨?_, ?_, ?_⟩
      · simp [hc]
      · intro e1 h1
        simp at h1
      · intro _ h2
        exact absurd hc h2
    · refine ⟨?_, ?_, ?_⟩
      · simp [hc]
      · intro e1 h1
        simp at h1
      · intro _ _
        refine ⟨"Received bad status code [" ++ toString code ++ "], expected [204]", ?_,
          data_infix _ _ _⟩
        simp [hc]

/-- The example of RFC 2617, and a credential without padding. -/
theorem basicAuth_examples :
    basicAuth "Aladdin" "open sesame" = "QWxhZGRpbjpvcGVuIHNlc2FtZQ==" ∧
    basicAuth "user" "pass" = "dXNlcjpwYXNz" := by
  constructor <;> decide

/-- The write URL of the default parameters, and one with every key present. -/
theorem writeURLFromConfig_examples :
    writeURLFromConfig id "http://localhost:8086" ⟨"stress", "autogen", "n", "one"⟩
      = "http://localhost:8086/write?db=stress&rp=autogen" ∧
    writeURLFromConfig id "http://localhost:8086" ⟨"stress", "autogen", "s", "all"⟩
      = "http://localhost:8086/write?consistency=all&db=stress&precision=s&rp=autogen" := by
  constructor <;> decide

/-! ## The claims about the write client -/

/-- C13 (all-or-nothing write result): whatever the transport, `Write(b)` returns
`(len(b), nil)` exactly when the transport reports no error and the status code 204;
with a transport error it returns `(0, that error)`, and with another status code
`(0, err)` where the message of `err` contains the status code. `WriteStream` obeys
the same contract with the declared size in place of `len(b)`, whatever bytes the
source yields. -/
theorem write_all_or_nothing (c : httpClient) (doTimeout : Request → Int → Outcome)
    (b source : List UInt8) (size : Int) :
    AllOrNothing (c.Write doTimeout b) b.length
      (doTimeout { c.makeRequest with contentLength := b.length, body := Body.bytes b }
        c.cfg.Timeout) ∧
    AllOrNothing (c.WriteStream doTimeout source size) size
      (doTimeout { c.makeRequest with contentLength := size, body := Body.stream source size }
        c.cfg.Timeout) :=
  ⟨allOrNothing_of_outcome _ _, allOrNothing_of_outcome _ _⟩

/-- C14 (write URL construction): `writeURLFromConfig` returns the base URL, then
`/write?`, then the query string made of the pairs `key=value` joined by `&` in the
order of the keys: `consistency` exactly when `Consistency` is neither `one` nor
empty, `db` always, `precision` exactly when `Precision` is neither `n` nor empty,
`rp` exactly when `RetentionPolicy` is not empty; each key once with its configured
value, and no other key. `NewClient` stores that string as the client's URL. -/
theorem writeURLFromConfig_query (escape : String → String) (baseURL : String)
    (wp : WriteParams) :
    writeURLFromConfig escape baseURL wp = baseURL ++ "/write?" ++ "&".intercalate (
      (if wp.Consistency ≠ "one" ∧ wp.Consistency ≠ "" then
        [escape "consistency" ++ "=" ++ escape wp.Consistency] else []) ++
      [escape "db" ++ "=" ++ escape wp.Database] ++
      (if wp.Precision ≠ "n" ∧ wp.Precision ≠ "" then
        [escape "precision" ++ "=" ++ escape wp.Precision] else []) ++
      (if wp.RetentionPolicy ≠ "" then
        [escape "rp" ++ "=" ++ escape wp.RetentionPolicy] else [])) ∧
    ∀ cfg : ClientConfig,
      (NewClient escape cfg).url = writeURLFromConfig escape cfg.BaseURL cfg.Params := by
  refine ⟨?_, fun _ => rfl⟩
  simp only [writeURLFromConfig]
  split_ifs <;>
    simp [Values.Set, Values.Encode, Values.keys, Values.lookup, sortStrings,
      List.insertionSort, List.orderedInsert, bytewiseLE]

/-- C15 (basic authentication header): the request built by `makeRequest` carries an
`Authorization` header exactly when `Username` and `Password` are both non-empty, and
its value is then `Basic ` followed by `basicAuth(Username, Password)`; and
`basicAuth(u, p)` is the standard padded base64 encoding of `u:p`, which decodes to
the bytes of `u:p`. -/
theorem makeRequest_authorization (c : httpClient) :
    c.makeRequest.header "Authorization"
      = (if c.cfg.Username ≠ "" ∧ c.cfg.Password ≠ "" then
          some ("Basic " ++ basicAuth c.cfg.Username c.cfg.Password) else none) ∧
    ∀ u p : String, (basicAuth u p).data = base64Encode (bytesOf (u ++ ":" ++ p)) ∧
      base64Decode (basicAuth u p).data = some (bytesOf (u ++ ":" ++ p)) := by
  constructor
  · simp only [httpClient.makeRequest]
    split_ifs <;> simp [Request.header, Request.Set, AcquireRequest]
  · intro u p
    exact ⟨rfl, base64_roundtrip _⟩

/-- C16 (create command and outcome): `Create(command)` posts to `BaseURL + "/query"`
the form whose only field `q` is the given command when that is non-empty, and
`CREATE DATABASE ` followed by the configured database otherwise. With a transport
error it returns that error; with a response it returns nil exactly when the status
code is 200, and for every other status an error whose message contains the command,
the status code and the response body. -/
theorem create_command_and_outcome (c : httpClient)
    (postForm : PostFormCall → Except GoError Response) (command : String) :
    (c.Create postForm command).1
      = ⟨c.cfg.BaseURL ++ "/query",
          [("q", [if command = "" then "CREATE DATABASE " ++ c.cfg.Params.Database
            else command])]⟩ ∧
    (∀ e, postForm (c.Create postForm command).1 = Except.error e →
      (c.Create postForm command).2 = some e) ∧
    (∀ resp, postForm (c.Create postForm command).1 = Except.ok resp →
      ((c.Create postForm command).2 = none ↔ resp.StatusCode = 200) ∧
      (resp.StatusCode ≠ 200 → ∃ msg, (c.Create postForm command).2 = some msg ∧
        (if command = "" then "CREATE DATABASE " ++ c.cfg.Params.Database
          else command).data <:+: msg.data ∧
        (toString resp.StatusCode).data <:+: msg.data ∧
        resp.Body.data <:+: msg.data)) := by
  have hcall : (c.Create postForm command).1
      = ⟨c.cfg.BaseURL ++ "/query",
          [("q", [if command = "" then "CREATE DATABASE " ++ c.cfg.Params.Database
            else command])]⟩ := by
    simp only [httpClient.Create]
    split
    · simp [Values.Set, Values.lookup]
    · split <;> simp [Values.Set, Values.lookup]
  refine ⟨hcall, ?_, ?_⟩
  · intro e he
    rw [hcall] at he
    simp only [httpClient.Create, Values.Set, Values.lookup, List.find?_nil, Option.map_none',
      Option.isSome_none, Bool.false_eq_true, if_false, List.nil_append, he]
  · intro resp hresp
    rw [hcall] at hresp
    by_cases hc : resp.StatusCode = 200
    · refine ⟨?_, fun h => absurd hc h⟩
      simp only [httpClient.Create, Values.Set, Values.lookup, List.find?_nil,
        Option.map_none', Option.isSome_none, Bool.false_eq_true, if_false, List.nil_append,
        hresp, hc, ne_eq, not_true_eq_false]
    · refine ⟨?_, fun _ => ?_⟩
      · simp only [httpClient.Create, Values.Set, Values.lookup, List.find?_nil,
          Option.map_none', Option.isSome_none, Bool.false_eq_true, if_false, List.nil_append,
          hresp, hc, ne_eq, not_false_eq_true, if_true]
        simp
      · refine ⟨"Bad status code during Create("
            ++ (if command = "" then "CREATE DATABASE " ++ c.cfg.Params.Database else command)
            ++ "): " ++ toString resp.StatusCode ++ ", body: " ++ resp.Body, ?_, ?_, ?_, ?_⟩
        · simp only [httpClient.Create, Values.Set, Values.lookup, List.find?_nil,
            Option.map_none', Option.isSome_none, Bool.false_eq_true, if_false,
            List.nil_append, hresp, hc, ne_eq, not_false_eq_true, if_true]
        · exact ⟨"Bad status code during Create(".data,
            ("): " ++ toString resp.StatusCode ++ ", body: " ++ resp.Body).data,
            by simp [String.data_append]⟩
        · exact ⟨("Bad status code during Create("
              ++ (if command = "" then "CREATE DATABASE " ++ c.cfg.Params.Database
                else command) ++ "): ").data,
            (", body: " ++ resp.Body).data, by simp [String.data_append]⟩
        · exact ⟨("Bad status code during Create("
              ++ (if command = "" then "CREATE DATABASE " ++ c.cfg.Params.Database
                else command) ++ "): " ++ toString resp.StatusCode ++ ", body: ").data,
            [], by simp [String.data_append]⟩

end influxdb
